import Mathlib

set_option maxRecDepth 100000

/-!
Shallow embedding of the text segmentation engine of the Text-to-Slides app
(the `textUtils` module: `optimizeForSlides`, `smartSplit`,
`forceSplitByLength`, `splitIntoAdvancedChunks`, `splitBySentences`,
`splitByWords`, `splitIntoSentences`, `detectContentType`,
`getReadingTime`, `getOptimalSlideCount`, `estimateSlideCount`).

Strings are modelled as `List Char`.  The JavaScript fractional size bounds
(`idealChunkSize * 0.3`, `* 1.5`, `* 1.2`, `* 0.4`) are all multiples of one
tenth, so the model stores every size bound exactly as an integer count of
TENTHS of a character (`0.3 * ideal` becomes `3 * ideal`, the constant `10`
becomes `100`, and a string length `n` being compared becomes `10 * n`);
all comparisons the code performs are preserved exactly.  For these
magnitudes IEEE doubles and exact arithmetic agree (the fractional values
stay at distance at least 1/10 from the integers being compared, far
beyond double rounding error).  `Math.ceil` of the integer quotients the
code forms is `jsCeilDiv`.  JavaScript string indices are Unicode
code points here rather than UTF-16 units; no claim in scope involves
astral-plane characters.  The single-pass regex replacements and splits
are implemented as structurally recursive scans so that every definition
evaluates inside the kernel.
-/

namespace TextToSlides

/-- The JS whitespace class (the regex class backslash-s, also used by
`String.prototype.trim`). -/
def isWs (c : Char) : Bool :=
  c == ' ' || c == '\t' || c == '\n' || c == '\r' ||
  c.toNat == 0x0b || c.toNat == 0x0c || c.toNat == 0xa0 || c.toNat == 0x1680 ||
  (0x2000 ≤ c.toNat && c.toNat ≤ 0x200a) ||
  c.toNat == 0x2028 || c.toNat == 0x2029 || c.toNat == 0x202f ||
  c.toNat == 0x205f || c.toNat == 0x3000 || c.toNat == 0xfeff

/-- Sentence-terminator characters of the regex `[^.!?]+[.!?]+`. -/
def isTerm (c : Char) : Bool := c == '.' || c == '!' || c == '?'

/-- `String.prototype.trim`. -/
def trim (cs : List Char) : List Char :=
  ((cs.dropWhile isWs).reverse.dropWhile isWs).reverse

/-- Scan for `text.replace(/\s+/g, ' ')`; the flag records whether the
previous character was whitespace (i.e. we are inside a run that has
already emitted its single space). -/
def collapseWsAux : Bool → List Char → List Char
  | _, [] => []
  | prevWs, c :: rest =>
    if isWs c then
      if prevWs then collapseWsAux true rest
      else ' ' :: collapseWsAux true rest
    else c :: collapseWsAux false rest

/-- `text.replace(/\s+/g, ' ')`: each maximal whitespace run becomes one
space. -/
def collapseWs (cs : List Char) : List Char := collapseWsAux false cs

/-- Emit a run of `n` periods as the replacement `...` when `n ≥ 3`,
unchanged otherwise. -/
def dotsOut (n : Nat) : List Char :=
  if 3 ≤ n then ['.', '.', '.'] else List.replicate n '.'

/-- Scan for `text.replace(/[.]{3,}/g, '...')`; `n` counts the pending
run of periods. -/
def collapseDots3Aux : Nat → List Char → List Char
  | n, [] => dotsOut n
  | n, c :: rest =>
    if c == '.' then collapseDots3Aux (n + 1) rest
    else dotsOut n ++ c :: collapseDots3Aux 0 rest

/-- `text.replace(/[.]{3,}/g, '...')`: each maximal run of 3 or more
periods becomes exactly three periods. -/
def collapseDots3 (cs : List Char) : List Char := collapseDots3Aux 0 cs

/-- `text.replace(/[""]/g, '"')` — in the source file the character class
holds two ASCII double quotes (the curly quotes were lost to encoding), so
the replacement maps a straight double quote to itself. -/
def mapDQuotes (cs : List Char) : List Char :=
  cs.map (fun c => if c == '"' then '"' else c)

/-- `text.replace(/['']/g, "'")` — likewise an ASCII single-quote class in
the source, mapping a straight single quote to itself. -/
def mapSQuotes (cs : List Char) : List Char :=
  cs.map (fun c => if c == '\'' then '\'' else c)

/-- Emit a run of `n` newlines as the replacement of two newlines when
`n ≥ 3`, unchanged otherwise. -/
def nlOut (n : Nat) : List Char :=
  if 3 ≤ n then ['\n', '\n'] else List.replicate n '\n'

/-- Scan for `text.replace(/\n{3,}/g, '\n\n')`; `n` counts the pending
run of newlines. -/
def collapseNl3Aux : Nat → List Char → List Char
  | n, [] => nlOut n
  | n, c :: rest =>
    if c == '\n' then collapseNl3Aux (n + 1) rest
    else nlOut n ++ c :: collapseNl3Aux 0 rest

/-- `text.replace(/\n{3,}/g, '\n\n')`: each maximal run of 3 or more
newlines becomes exactly two newlines. -/
def collapseNl3 (cs : List Char) : List Char := collapseNl3Aux 0 cs

/-- `optimizeForSlides` (the Normalizer): whitespace collapse, ellipsis
collapse, the two (vacuous) quote replacements, newline-run collapse,
trim — in the source's order. -/
def optimizeForSlides (text : List Char) : List Char :=
  trim (collapseNl3 (mapSQuotes (mapDQuotes (collapseDots3 (collapseWs text)))))

/-- Scan for `text.split(/\s+/)`; `inWs` records being inside a
whitespace run whose token has already been emitted, `acc` the current
token. -/
def splitWsAux : Bool → List Char → List Char → List (List Char)
  | _, acc, [] => [acc]
  | inWs, acc, c :: rest =>
    if isWs c then
      if inWs then splitWsAux true acc rest
      else acc :: splitWsAux true [] rest
    else splitWsAux false (acc ++ [c]) rest

/-- `text.split(/\s+/)`: JS split on whitespace runs.  A leading run
yields a leading empty token and a trailing run a trailing empty token,
exactly as in JS. -/
def splitWs (cs : List Char) : List (List Char) := splitWsAux false [] cs

/-- Scan for the global matches of the regex `[^.!?]+[.!?]+`: `accN` is
the current run of non-terminators, `accT` the current run of
terminators following it.  A match is emitted once the terminator run
ends; a trailing non-terminator run without terminators is not a
match, and terminators with no preceding non-terminator are skipped. -/
def sentAux : List Char → List Char → List Char → List (List Char)
  | accN, accT, [] => if accT.isEmpty then [] else [accN ++ accT]
  | accN, accT, c :: rest =>
    if isTerm c then
      if accN.isEmpty && accT.isEmpty then sentAux [] [] rest
      else sentAux accN (accT ++ [c]) rest
    else
      if accT.isEmpty then sentAux (accN ++ [c]) [] rest
      else (accN ++ accT) :: sentAux [c] [] rest

/-- All matches of `[^.!?]+[.!?]+` in scan order. -/
def sentenceMatches (cs : List Char) : List (List Char) := sentAux [] [] cs

/-- `splitIntoSentences`: regex matches, trimmed, empties dropped; if the
regex finds nothing, the whole trimmed text is the single sentence. -/
def splitIntoSentences (text : List Char) : List (List Char) :=
  match sentenceMatches text with
  | [] => [trim text]
  | m => (m.map trim).filter (fun s => s.length > 0)

/-- `text.split('\n')`. -/
def splitLines : List Char → List (List Char)
  | [] => [[]]
  | '\n' :: rest => [] :: splitLines rest
  | c :: rest =>
    match splitLines rest with
    | [] => [[c]]
    | l :: ls => (c :: l) :: ls

/-- Prepend a character to the first piece of a split result. -/
def consFirst (c : Char) : List (List Char) → List (List Char)
  | [] => [[c]]
  | l :: ls => (c :: l) :: ls

/-- `text.split('\n\n')`: split on the two-character separator, scanning
left to right. -/
def splitOnNlNl : List Char → List (List Char)
  | [] => [[]]
  | [c] => [[c]]
  | c :: c2 :: rest =>
    if c = '\n' ∧ c2 = '\n' then [] :: splitOnNlNl rest
    else consFirst c (splitOnNlNl (c2 :: rest))

/-- The five content-type labels of `detectContentType`. -/
inductive ContentType
  | list
  | story
  | technical
  | quote
  | general
deriving DecidableEq

/-- The test `/^[\s]*[-*â€¢]\s/.test(line)`: in the source file the
character class holds, besides `-` and `*`, the three characters
U+00E2, U+20AC, U+00A2 (an encoding-damaged bullet glyph). -/
def lineIsBullet (line : List Char) : Bool :=
  match line.dropWhile isWs with
  | b :: c :: _ =>
    (b == '-' || b == '*' || b == 'â' || b == '€' || b == '¢') && isWs c
  | _ => false

/-- The test `/^\d+\.\s/.test(line)`. -/
def lineIsNumbered (line : List Char) : Bool :=
  match line.dropWhile Char.isDigit with
  | '.' :: c :: _ => decide (line.takeWhile Char.isDigit ≠ []) && isWs c
  | _ => false

/-- Substring containment, for `text.includes(pat)`. -/
def includesSub (pat : List Char) : List Char → Bool
  | [] => pat.isPrefixOf []
  | c :: rest => pat.isPrefixOf (c :: rest) || includesSub pat rest

/-- `detectContentType`: first matching rule wins (list, quote,
technical, story, general). -/
def detectContentType (text : List Char) : ContentType :=
  let lines := splitLines text
  let sentences := splitIntoSentences text
  if lines.any lineIsBullet || lines.any lineIsNumbered then .list
  else if includesSub ['"'] text && decide (sentences.length ≤ 3) then .quote
  else if includesSub "function".toList text || includesSub "class".toList text ||
      includesSub "API".toList text || includesSub "code".toList text then .technical
  else if decide (sentences.length > 5) && includesSub ['.'] text then .story
  else .general

/-- The options record handed to `splitIntoAdvancedChunks`.  The size
bounds are JS numbers that are always multiples of 1/10; they are stored
exactly as integers in tenths of a character. -/
structure SplitOptions where
  preserveParagraphs : Bool
  respectSentences : Bool
  respectWords : Bool
  minChunkSize : Int
  maxChunkSize : Int
deriving DecidableEq

/-- One step of the greedy sentence packer of `splitBySentences`: state
is (emitted chunks, current chunk). -/
def sentStep (maxSize minSize : Int) (st : List (List Char) × List Char)
    (s : List Char) : List (List Char) × List Char :=
  let ts := trim s
  if (10 * (st.2.length + ts.length) : Int) ≤ maxSize then
    (st.1, (if st.2 ≠ [] then st.2 ++ [' '] else []) ++ ts)
  else
    (st.1 ++ (if st.2 ≠ [] ∧ (10 * st.2.length : Int) ≥ minSize then [trim st.2] else []), ts)

/-- `splitBySentences`: greedy packing of the sentence list, joined by
single spaces; a finished chunk is kept only if it reaches `minSize`. -/
def splitBySentences (text : List Char) (maxSize minSize : Int) : List (List Char) :=
  let st := (splitIntoSentences text).foldl (sentStep maxSize minSize) ([], [])
  st.1 ++ (if st.2 ≠ [] ∧ (10 * st.2.length : Int) ≥ minSize then [trim st.2] else [])

/-- One step of the greedy word packer of `splitByWords` (note the `+ 1`
for the joining space in the size test, as in the source). -/
def wordStep (maxSize minSize : Int) (st : List (List Char) × List Char)
    (w : List Char) : List (List Char) × List Char :=
  if (10 * (st.2.length + w.length + 1) : Int) ≤ maxSize then
    (st.1, (if st.2 ≠ [] then st.2 ++ [' '] else []) ++ w)
  else
    (st.1 ++ (if st.2 ≠ [] ∧ (10 * st.2.length : Int) ≥ minSize then [trim st.2] else []), w)

/-- `splitByWords`: greedy packing of `text.split(/\s+/)`. -/
def splitByWords (text : List Char) (maxSize minSize : Int) : List (List Char) :=
  let st := (splitWs text).foldl (wordStep maxSize minSize) ([], [])
  st.1 ++ (if st.2 ≠ [] ∧ (10 * st.2.length : Int) ≥ minSize then [trim st.2] else [])

/-- The loop state of `splitIntoAdvancedChunks`: emitted chunks, the
running chunk, and its tracked length (tracked separately in the
source, not counting the blank-line joiners). -/
structure ChunkState where
  chunks : List (List Char)
  current : List Char
  currentLength : Nat
deriving DecidableEq

/-- One iteration of the paragraph loop of `splitIntoAdvancedChunks`. -/
def chunkStep (o : SplitOptions) (st : ChunkState) (p : List Char) : ChunkState :=
  let tp := trim p
  if (10 * (st.currentLength + tp.length) : Int) ≤ o.maxChunkSize then
    { st with
      current := (if st.current ≠ [] then st.current ++ ['\n', '\n'] else []) ++ tp,
      currentLength := st.currentLength + tp.length }
  else
    let st1 : ChunkState :=
      if st.current ≠ [] then
        { chunks := st.chunks ++ [trim st.current], current := [], currentLength := 0 }
      else st
    if o.respectSentences && decide ((10 * tp.length : Int) > o.maxChunkSize) then
      { st1 with chunks := st1.chunks ++ splitBySentences tp o.maxChunkSize o.minChunkSize }
    else if o.respectWords && decide ((10 * tp.length : Int) > o.maxChunkSize) then
      { st1 with chunks := st1.chunks ++ splitByWords tp o.maxChunkSize o.minChunkSize }
    else
      { st1 with chunks := st1.chunks ++ [tp] }

/-- `splitIntoAdvancedChunks` (the Chunker).  The `maxChars` parameter of
the source only provides the default for `maxChunkSize` and every call
in scope supplies the full options record, so it is omitted here. -/
def splitIntoAdvancedChunks (text : List Char) (o : SplitOptions) : List (List Char) :=
  let cleanText := trim (collapseWs text)
  if (10 * cleanText.length : Int) ≤ o.maxChunkSize then [cleanText]
  else
    let paragraphs :=
      if o.preserveParagraphs then (splitOnNlNl cleanText).filter (fun p => trim p ≠ [])
      else [cleanText]
    let st := paragraphs.foldl (chunkStep o) ⟨[], [], 0⟩
    let chunks := st.chunks ++ (if trim st.current ≠ [] then [trim st.current] else [])
    chunks.filter (fun c => (10 * c.length : Int) ≥ o.minChunkSize)

/-- `Math.ceil(a / b)` for a non-negative integer numerator and an
integer denominator, as the splitters compute it.  For `b = 0` JS would
produce `Infinity`; the model returns 0 there and no claim in scope
exercises that case. -/
def jsCeilDiv (a : Nat) (b : Int) : Int :=
  if 0 < b then ((a + b.toNat - 1) / b.toNat : Nat)
  else -((a / (-b).toNat : Nat))

/-- The boundary characters the fallback splitter backtracks to. -/
def isBoundaryChar (c : Char) : Bool :=
  c == ' ' || c == '.' || c == ',' || c == ';' || c == ':' || c == '\n'

/-- The backward search of `forceSplitByLength`: scan indices from `i`
down to `lo` for a boundary character, returning the index right after
it.  Out-of-range reads yield a non-boundary character, as JS indexing
yields `undefined`. -/
def findBreak (cs : List Char) (lo : Nat) : Nat → Option Nat
  | 0 => if isBoundaryChar (cs.getD 0 (Char.ofNat 0)) then some 1 else none
  | i + 1 =>
    if isBoundaryChar (cs.getD (i + 1) (Char.ofNat 0)) then some (i + 2)
    else if i + 1 ≤ lo then none
    else findBreak cs lo i

/-- The window end-point one iteration of `forceSplitByLength` chooses
from `start`: the raw window end, moved back to the nearest boundary
within 40 characters when the end falls strictly inside the text, and
forced to be at least `start + 1`. -/
def forceNext (cs : List Char) (idealN start : Nat) : Nat :=
  if min (start + idealN) cs.length < cs.length then
    max
      ((if min (start + idealN) cs.length = 0 then none
        else findBreak cs (max start (min (start + idealN) cs.length - 40))
          (min (start + idealN) cs.length - 1)).getD
        (min (start + idealN) cs.length))
      (start + 1)
  else min (start + idealN) cs.length

/-- The scanning loop of `forceSplitByLength`, with explicit fuel (the
fuel is only a structural-recursion device: `forceNext` strictly
increases `start`, so fuel `cs.length` never runs out). -/
def forceLoop (cs : List Char) (idealN : Nat) : Nat → Nat → List (List Char)
  | 0, _ => []
  | fuel + 1, start =>
    if start < cs.length then
      (if trim ((cs.drop start).take (forceNext cs idealN start - start)) ≠ [] then
        [trim ((cs.drop start).take (forceNext cs idealN start - start))]
      else []) ++ forceLoop cs idealN fuel (forceNext cs idealN start)
    else []

/-- `forceSplitByLength` (the fallback length splitter). -/
def forceSplitByLength (text : List Char) (targetSlides : Int) : List (List Char) :=
  let trimmed := trim text
  if trimmed = [] then []
  else
    let slides : Int := max 1 targetSlides
    let idealN : Nat := (max 1 (jsCeilDiv trimmed.length slides)).toNat
    let result := forceLoop trimmed idealN trimmed.length 0
    if result.length > 0 then result else [trimmed]

/-- The options `smartSplit` resolves before invoking the Chunker:
defaults from `idealChunkSize` and the text length, then the
content-type overrides. -/
def smartSplitOptions (trimmedText : List Char) (idealChunkSize : Int) : SplitOptions :=
  let base : SplitOptions := {
    preserveParagraphs := true
    respectSentences := true
    respectWords := true
    minChunkSize := min 100 (idealChunkSize * 3)
    maxChunkSize := min (idealChunkSize * 15) (10 * trimmedText.length) }
  match detectContentType trimmedText with
  | .list => { base with preserveParagraphs := true, respectSentences := false }
  | .story => { base with respectSentences := true, respectWords := false }
  | .technical => { base with
      respectWords := true
      minChunkSize := max 500 (idealChunkSize * 4) }
  | .quote => { base with
      preserveParagraphs := true
      respectSentences := true
      maxChunkSize := idealChunkSize * 12 }
  | .general => base

/-- The sentinel fragment returned for empty input. -/
def placeholderNoContent : List Char := "No content provided".toList

/-- `smartSplit` (the Planner), the primary entry point.
`targetSlides` is an arbitrary integer as in JS; the model is faithful
for every `targetSlides ≠ 0` (JS division by zero would yield
`Infinity` for `idealChunkSize`, a value no claim in scope exercises). -/
def smartSplit (text : List Char) (targetSlides : Int) : List (List Char) :=
  if text = [] ∨ trim text = [] then [placeholderNoContent]
  else
    let trimmedText := trim text
    let textLength := trimmedText.length
    if textLength < 20 then [trimmedText]
    else
      let ts : Int := if textLength < 50 ∧ 1 < targetSlides then 1 else targetSlides
      let idealChunkSize : Int := jsCeilDiv textLength ts
      let o := smartSplitOptions trimmedText idealChunkSize
      let chunks := splitIntoAdvancedChunks trimmedText o
      if (chunks.length : Int) < ts then
        let desired : Int := max 1 (jsCeilDiv textLength ts)
        let sourceChunks := if chunks.length > 0 then chunks else [trimmedText]
        let forced := (sourceChunks.map (fun c =>
          forceSplitByLength c (max 1 (jsCeilDiv c.length desired)))).flatten
        forced.filter (fun c => c.length > 0)
      else chunks

/-- Ceiling division on naturals, for the `Math.ceil(a / b)` the slide
estimators perform on integer inputs. -/
def natCeilDiv (a b : Nat) : Nat := (a + b - 1) / b

/-- `getReadingTime`: word count (JS `split(/\s+/)` token count) divided
by words-per-minute, rounded up. -/
def getReadingTime (text : List Char) (wordsPerMinute : Nat) : Nat :=
  natCeilDiv (splitWs text).length wordsPerMinute

/-- `getOptimalSlideCount`. -/
def getOptimalSlideCount (text : List Char) : Nat :=
  let textLength := (trim text).length
  if textLength < 50 then 1
  else
    let contentType := detectContentType text
    let readingTime := getReadingTime text 200
    let optimalCount :=
      match contentType with
      | .list => min 5 (max 2 (natCeilDiv textLength 150))
      | .story => min 6 (max 3 (natCeilDiv textLength 200))
      | .technical => min 8 (max 2 (natCeilDiv textLength 100))
      | .quote => 1
      | .general => min 5 (max 2 (natCeilDiv textLength 180))
    if readingTime > 2 then min (optimalCount + 1) 8 else optimalCount

/-- `estimateSlideCount` (the source's default `charsPerSlide` is 200,
supplied explicitly at use sites here). -/
def estimateSlideCount (text : List Char) (charsPerSlide : Nat) : Nat :=
  let cleanText := trim (collapseWs text)
  if cleanText = [] then 1
  else
    let optimized := optimizeForSlides cleanText
    let targetSlides := getOptimalSlideCount optimized
    let chunks := smartSplit optimized (targetSlides : Int)
    let lengthEstimate := max 1 (natCeilDiv optimized.length charsPerSlide)
    max chunks.length lengthEstimate

/-- All non-whitespace characters of a string, in order: the residue by
which "equality modulo whitespace" of fragment concatenations is
measured. -/
def removeWs (cs : List Char) : List Char := cs.filter (fun c => !isWs c)

/-- No two adjacent whitespace characters. -/
def wsPairFree (l : List Char) : Prop :=
  List.Chain' (fun a b => ¬(isWs a = true ∧ isWs b = true)) l

/-- Every whitespace character is a plain space. -/
def wsAllSpace (l : List Char) : Prop := ∀ c ∈ l, isWs c = true → c = ' '

/-- No run of four (hence of more than three) consecutive periods. -/
def noFourDots (l : List Char) : Prop := ¬ (List.replicate 4 '.' <:+: l)

/-- Clamp `v` into the interval `[lo, hi]`. -/
def clampRange (lo hi v : Nat) : Nat := max lo (min hi v)

/-- The slide-count formula exactly as the claim states it: the
content-type base count (clamped ceiling divisions over the trimmed
length), plus one capped at 8 exactly when the reading time exceeds two
minutes — and no other rule.  Stated from the claim's words, to be
compared with `getOptimalSlideCount`. -/
def specOptimalSlideCount (text : List Char) : Nat :=
  let len := (trim text).length
  let base :=
    match detectContentType text with
    | .list => clampRange 2 5 (natCeilDiv len 150)
    | .story => clampRange 3 6 (natCeilDiv len 200)
    | .technical => clampRange 2 8 (natCeilDiv len 100)
    | .quote => 1
    | .general => clampRange 2 5 (natCeilDiv len 180)
  if getReadingTime text 200 > 2 then min (base + 1) 8 else base

/-- A 1000-character run-on sentence without punctuation: twenty-six
37-letter words separated by single spaces, then a final 12-letter
word. -/
def c1text : List Char :=
  (List.replicate 26 (List.replicate 37 'w' ++ [' '])).flatten ++ List.replicate 12 'w'

/-- A 302-character quote: a double-quoted run of 300 letters. -/
def c2text : List Char := '"' :: (List.replicate 300 'a' ++ ['"'])

/-- A 60-character quote: a double-quoted run of 58 letters. -/
def c7text : List Char := '"' :: (List.replicate 58 'a' ++ ['"'])

/-- An 84-character text of two sentences, the second a short trailing
sentence that the sentence packer drops. -/
def c9text : List Char := List.replicate 79 'a' ++ ['.', ' ', 'H', 'i', '.']

/-! ### Basic lemmas about `trim` and `removeWs` -/

theorem dropWhile_head_not {p : Char → Bool} :
    ∀ (cs : List Char) {c : Char} {t : List Char}, cs.dropWhile p = c :: t → p c = false
  | [], _, _, h => by simp at h
  | c' :: rest, c, t, h => by
    rw [List.dropWhile_cons] at h
    by_cases hp : p c' = true
    · rw [if_pos hp] at h
      exact dropWhile_head_not rest h
    · rw [if_neg hp] at h
      injection h with h1 _
      subst h1
      simpa using hp

theorem trim_prefix_dropWhile (cs : List Char) : trim cs <+: cs.dropWhile isWs := by
  obtain ⟨t, ht⟩ := List.dropWhile_suffix (l := (cs.dropWhile isWs).reverse) isWs
  refine ⟨t.reverse, ?_⟩
  have : (t ++ (cs.dropWhile isWs).reverse.dropWhile isWs).reverse =
      (cs.dropWhile isWs).reverse.reverse := by rw [ht]
  simpa [trim, List.reverse_append] using this

theorem trim_isInfix (cs : List Char) : trim cs <:+: cs := by
  obtain ⟨r, hr⟩ := trim_prefix_dropWhile cs
  obtain ⟨s, hs⟩ := List.dropWhile_suffix (l := cs) isWs
  exact ⟨s, r, by rw [List.append_assoc, hr, hs]⟩

theorem trim_sublist (cs : List Char) : (trim cs).Sublist cs :=
  (trim_isInfix cs).sublist

theorem mem_trim {c : Char} {cs : List Char} (h : c ∈ trim cs) : c ∈ cs :=
  (trim_sublist cs).mem h

theorem trim_idem (cs : List Char) : trim (trim cs) = trim cs := by
  have h1 : (trim cs).dropWhile isWs = trim cs := by
    cases hy : trim cs with
    | nil => simp
    | cons c t =>
      obtain ⟨r, hr⟩ := trim_prefix_dropWhile cs
      rw [hy] at hr
      have hc : isWs c = false := dropWhile_head_not cs (by rw [← hr]; rfl)
      rw [List.dropWhile_cons, hc]
      simp
  have h2 : (trim cs).reverse.dropWhile isWs = (trim cs).reverse := by
    have hrev : (trim cs).reverse = (cs.dropWhile isWs).reverse.dropWhile isWs := by
      simp [trim]
    cases hb : (trim cs).reverse with
    | nil => simp
    | cons b t' =>
      have hb' : (cs.dropWhile isWs).reverse.dropWhile isWs = b :: t' := by
        rw [← hrev, hb]
      have hc : isWs b = false := dropWhile_head_not _ hb'
      rw [List.dropWhile_cons, hc]
      simp
  show ((((trim cs).dropWhile isWs).reverse).dropWhile isWs).reverse = trim cs
  rw [h1, h2, List.reverse_reverse]

theorem removeWs_append (a b : List Char) :
    removeWs (a ++ b) = removeWs a ++ removeWs b := by
  simp [removeWs, List.filter_append]

theorem removeWs_dropWhile (cs : List Char) :
    removeWs (cs.dropWhile isWs) = removeWs cs := by
  conv_rhs => rw [← List.takeWhile_append_dropWhile isWs cs]
  rw [removeWs_append]
  have : removeWs (cs.takeWhile isWs) = [] := by
    simp only [removeWs, List.filter_eq_nil_iff]
    intro c hc
    simp [List.mem_takeWhile_imp hc]
  rw [this, List.nil_append]

theorem removeWs_reverse (cs : List Char) :
    removeWs cs.reverse = (removeWs cs).reverse := by
  simp [removeWs, List.filter_reverse]

theorem removeWs_trim (cs : List Char) : removeWs (trim cs) = removeWs cs := by
  show removeWs ((cs.dropWhile isWs).reverse.dropWhile isWs).reverse = removeWs cs
  rw [removeWs_reverse, removeWs_dropWhile, removeWs_reverse, List.reverse_reverse,
    removeWs_dropWhile]

theorem removeWs_eq_self {cs : List Char} (h : ∀ c ∈ cs, isWs c = false) :
    removeWs cs = cs := by
  simp only [removeWs, List.filter_eq_self]
  intro c hc
  simp [h c hc]

theorem trim_eq_self {cs : List Char} (h : ∀ c ∈ cs, isWs c = false) :
    trim cs = cs := by
  have hdw : ∀ l : List Char, (∀ c ∈ l, isWs c = false) → l.dropWhile isWs = l := by
    intro l hl
    cases l with
    | nil => simp
    | cons c t =>
      rw [List.dropWhile_cons, hl c (by simp)]
      simp
  show ((cs.dropWhile isWs).reverse.dropWhile isWs).reverse = cs
  rw [hdw cs h, hdw _ (by intro c hc; exact h c (by simpa using hc)), List.reverse_reverse]

theorem removeWs_sublist (cs : List Char) : (removeWs cs).Sublist cs :=
  List.filter_sublist cs

/-! ### The normalizer stages: membership and identity lemmas -/

theorem mem_collapseWsAux {c : Char} :
    ∀ (b : Bool) (cs : List Char), c ∈ collapseWsAux b cs → c = ' ' ∨ isWs c = false
  | _, [], h => by simp [collapseWsAux] at h
  | b, c' :: rest, h => by
    rw [collapseWsAux] at h
    by_cases hw : isWs c' = true
    · rw [if_pos hw] at h
      cases b with
      | true => exact mem_collapseWsAux true rest (by simpa using h)
      | false =>
        simp only [if_neg (by simp : ¬(false = true)), List.mem_cons] at h
        rcases h with h | h
        · exact Or.inl h
        · exact mem_collapseWsAux true rest h
    · rw [if_neg hw] at h
      rcases List.mem_cons.mp h with h | h
      · subst h
        exact Or.inr (by simpa using hw)
      · exact mem_collapseWsAux false rest h

theorem collapseWs_wsAllSpace (cs : List Char) : wsAllSpace (collapseWs cs) := by
  intro c hc hws
  rcases mem_collapseWsAux false cs hc with h | h
  · exact h
  · rw [hws] at h
    cases h

theorem noNl_collapseWs (cs : List Char) : '\n' ∉ collapseWs cs := by
  intro h
  rcases mem_collapseWsAux false cs h with h' | h'
  · cases h'
  · have : isWs '\n' = true := by decide
    rw [this] at h'
    cases h'

theorem mem_dotsOut {c : Char} {n : Nat} (h : c ∈ dotsOut n) : c = '.' := by
  rw [dotsOut] at h
  split at h
  · simp only [List.mem_cons, List.not_mem_nil, or_false] at h
    rcases h with h | h | h <;> exact h
  · exact List.eq_of_mem_replicate h

theorem mem_collapseDots3Aux {c : Char} :
    ∀ (n : Nat) (cs : List Char), c ∈ collapseDots3Aux n cs → c = '.' ∨ c ∈ cs
  | n, [], h => Or.inl (mem_dotsOut (by simpa [collapseDots3Aux] using h))
  | n, c' :: rest, h => by
    rw [collapseDots3Aux] at h
    by_cases hd : (c' == '.') = true
    · rw [if_pos hd] at h
      rcases mem_collapseDots3Aux (n + 1) rest h with h' | h'
      · exact Or.inl h'
      · exact Or.inr (List.mem_cons_of_mem _ h')
    · rw [if_neg hd] at h
      rcases List.mem_append.mp h with h' | h'
      · exact Or.inl (mem_dotsOut h')
      · rcases List.mem_cons.mp h' with h'' | h''
        · exact Or.inr (by simp [h''])
        · rcases mem_collapseDots3Aux 0 rest h'' with h3 | h3
          · exact Or.inl h3
          · exact Or.inr (List.mem_cons_of_mem _ h3)

theorem mapDQuotes_eq (cs : List Char) : mapDQuotes cs = cs := by
  have : ∀ c : Char, (if c == '"' then '"' else c) = c := by
    intro c
    by_cases h : (c == '"') = true
    · rw [if_pos h]
      exact (beq_iff_eq.mp h).symm
    · rw [if_neg h]
  simp only [mapDQuotes, this, List.map_id']

theorem mapSQuotes_eq (cs : List Char) : mapSQuotes cs = cs := by
  have : ∀ c : Char, (if c == '\'' then '\'' else c) = c := by
    intro c
    by_cases h : (c == '\'') = true
    · rw [if_pos h]
      exact (beq_iff_eq.mp h).symm
    · rw [if_neg h]
  simp only [mapSQuotes, this, List.map_id']

theorem collapseNl3Aux_eq_self : ∀ (cs : List Char), '\n' ∉ cs → collapseNl3Aux 0 cs = cs
  | [], _ => by simp [collapseNl3Aux, nlOut]
  | c :: rest, h => by
    have hc : ¬((c == '\n') = true) := by
      intro hb
      exact h (by simp [beq_iff_eq.mp hb])
    rw [collapseNl3Aux, if_neg hc, nlOut]
    simp only [if_neg (by decide : ¬(3 ≤ 0)), List.replicate_zero, List.nil_append]
    rw [collapseNl3Aux_eq_self rest (fun hr => h (List.mem_cons_of_mem _ hr))]

theorem optimize_eq_trim_dots (x : List Char) :
    optimizeForSlides x = trim (collapseDots3 (collapseWs x)) := by
  rw [optimizeForSlides, mapDQuotes_eq, mapSQuotes_eq, collapseNl3]
  rw [collapseNl3Aux_eq_self]
  intro h
  rcases mem_collapseDots3Aux 0 (collapseWs x) h with h' | h'
  · cases h'
  · exact noNl_collapseWs x h'

theorem optimize_no_newline_aux (x : List Char) : '\n' ∉ optimizeForSlides x := by
  rw [optimize_eq_trim_dots]
  intro h
  rcases mem_collapseDots3Aux 0 (collapseWs x) (mem_trim h) with h' | h'
  · cases h'
  · exact noNl_collapseWs x h'

/-! ### Splitting an infix across an append -/

theorem prefix_append_cases {p A B : List Char} (h : p <+: A ++ B) :
    p <+: A ∨ ∃ q, p = A ++ q ∧ q <+: B := by
  induction A generalizing p with
  | nil => exact Or.inr ⟨p, by simp, by simpa using h⟩
  | cons a A' ih =>
    cases p with
    | nil => exact Or.inl (List.nil_prefix)
    | cons x p' =>
      rw [List.cons_append, List.cons_prefix_cons] at h
      obtain ⟨hx, hp'⟩ := h
      subst hx
      rcases ih hp' with h' | ⟨q, hq, hqB⟩
      · exact Or.inl (by rw [List.cons_prefix_cons]; exact ⟨rfl, h'⟩)
      · exact Or.inr ⟨q, by rw [hq, List.cons_append], hqB⟩

theorem infix_append_cases {p A B : List Char} (h : p <:+: A ++ B) :
    p <:+: A ∨ p <:+: B ∨
      ∃ p₁ p₂, p = p₁ ++ p₂ ∧ p₁ ≠ [] ∧ p₂ ≠ [] ∧ p₁ <:+ A ∧ p₂ <+: B := by
  induction A generalizing p with
  | nil => exact Or.inr (Or.inl (by simpa using h))
  | cons a A' ih =>
    rw [List.cons_append, List.infix_cons_iff] at h
    rcases h with h | h
    · rcases prefix_append_cases (A := a :: A') (B := B) h with h' | ⟨q, hq, hqB⟩
      · exact Or.inl (h'.isInfix)
      · by_cases hqnil : q = []
        · subst hqnil
          exact Or.inl (by rw [hq, List.append_nil])
        · exact Or.inr (Or.inr ⟨a :: A', q, hq, by simp, hqnil, List.suffix_refl _, hqB⟩)
    · rcases ih h with h' | h' | ⟨p₁, p₂, hp, h1, h2, hA, hB⟩
      · exact Or.inl (List.infix_cons h')
      · exact Or.inr (Or.inl h')
      · exact Or.inr (Or.inr ⟨p₁, p₂, hp, h1, h2, hA.trans (List.suffix_cons a A'), hB⟩)

/-! ### Invariants of the whitespace collapse -/

theorem collapseWsAux_true_head :
    ∀ cs : List Char, collapseWsAux true cs = [] ∨
      ∃ c t, collapseWsAux true cs = c :: t ∧ isWs c = false
  | [] => Or.inl rfl
  | c :: rest => by
    rw [collapseWsAux]
    by_cases hw : isWs c = true
    · rw [if_pos hw, if_pos rfl]
      exact collapseWsAux_true_head rest
    · rw [if_neg hw]
      exact Or.inr ⟨c, _, rfl, by simpa using hw⟩

theorem chain'_of_nonWs {l : List Char} (h : ∀ c ∈ l, isWs c = false) : wsPairFree l := by
  induction l with
  | nil => exact List.chain'_nil
  | cons c t ih =>
    rw [wsPairFree, List.chain'_cons']
    refine ⟨fun y _ hy => ?_, ih (fun d hd => h d (List.mem_cons_of_mem _ hd))⟩
    rw [h c (by simp)] at hy
    cases hy.1

theorem collapseWsAux_wsPairFree : ∀ (b : Bool) (cs : List Char), wsPairFree (collapseWsAux b cs)
  | _, [] => List.chain'_nil
  | b, c :: rest => by
    rw [collapseWsAux]
    by_cases hw : isWs c = true
    · rw [if_pos hw]
      cases b with
      | true => exact collapseWsAux_wsPairFree true rest
      | false =>
        rw [if_neg (by simp : ¬(false = true))]
        rw [wsPairFree, List.chain'_cons']
        refine ⟨fun y hy => ?_, collapseWsAux_wsPairFree true rest⟩
        rcases collapseWsAux_true_head rest with hnil | ⟨c', t', heq, hc'⟩
        · rw [hnil] at hy
          cases hy
        · rw [heq] at hy
          simp only [List.head?_cons, Option.mem_def, Option.some.injEq] at hy
          subst hy
          intro hand
          rw [hc'] at hand
          cases hand.2
    · rw [if_neg hw]
      rw [wsPairFree, List.chain'_cons']
      refine ⟨fun y _ => ?_, collapseWsAux_wsPairFree false rest⟩
      intro hand
      rw [show isWs c = false by simpa using hw] at hand
      cases hand.1

theorem collapseWsAux_true_eq_false {cs : List Char}
    (h : cs = [] ∨ ∃ c t, cs = c :: t ∧ isWs c = false) :
    collapseWsAux true cs = collapseWsAux false cs := by
  rcases h with h | ⟨c, t, heq, hc⟩
  · subst h; rfl
  · subst heq
    rw [collapseWsAux, collapseWsAux, if_neg (by simp [hc]), if_neg (by simp [hc])]

theorem collapseWsAux_eq_self :
    ∀ cs : List Char, wsAllSpace cs → wsPairFree cs → collapseWsAux false cs = cs
  | [], _, _ => rfl
  | c :: rest, hspace, hpair => by
    have hpair' : wsPairFree rest := (List.chain'_cons'.mp hpair).2
    have hspace' : wsAllSpace rest := fun d hd => hspace d (List.mem_cons_of_mem _ hd)
    rw [collapseWsAux]
    by_cases hw : isWs c = true
    · rw [if_pos hw, if_neg (by simp : ¬(false = true))]
      have hc : c = ' ' := hspace c (by simp) hw
      have hhead : rest = [] ∨ ∃ c' t, rest = c' :: t ∧ isWs c' = false := by
        cases rest with
        | nil => exact Or.inl rfl
        | cons c' t =>
          refine Or.inr ⟨c', t, rfl, ?_⟩
          have := (List.chain'_cons'.mp hpair).1 c' (by simp)
          by_cases hc' : isWs c' = true
          · exact absurd ⟨hw, hc'⟩ this
          · simpa using hc'
      rw [collapseWsAux_true_eq_false hhead, collapseWsAux_eq_self rest hspace' hpair', hc]
    · rw [if_neg hw, collapseWsAux_eq_self rest hspace' hpair']

/-! ### Invariants of the period-run collapse -/

theorem dotsOut_eq_replicate {n : Nat} (h : n ≤ 3) : dotsOut n = List.replicate n '.' := by
  rw [dotsOut]
  split
  · have : n = 3 := le_antisymm h (by assumption)
    subst this
    rfl
  · rfl

theorem dotsOut_length_le (n : Nat) : (dotsOut n).length ≤ 3 := by
  rw [dotsOut]
  split
  · simp
  · simp
    omega

theorem noFourDots_mono {l m : List Char} (h : l <:+: m) (hm : noFourDots m) :
    noFourDots l := fun hinf => hm (hinf.trans h)

theorem wsAllSpace_sublist {l m : List Char} (h : l.Sublist m) (hm : wsAllSpace m) :
    wsAllSpace l := fun c hc => hm c (h.mem hc)

theorem wsPairFree_infix {l m : List Char} (h : l <:+: m) (hm : wsPairFree m) :
    wsPairFree l := List.Chain'.infix hm h

theorem collapseDots3_wsAllSpace {n : Nat} {cs : List Char} (h : wsAllSpace cs) :
    wsAllSpace (collapseDots3Aux n cs) := by
  intro c hc hws
  rcases mem_collapseDots3Aux n cs hc with h' | h'
  · subst h'
    cases hws
  · exact h c h' hws

theorem collapseDots3Aux_head_pos :
    ∀ (cs : List Char) (n : Nat), 1 ≤ n → ∃ t, collapseDots3Aux n cs = '.' :: t
  | [], n, hn => by
    rw [collapseDots3Aux, dotsOut]
    split
    · exact ⟨_, rfl⟩
    · cases n with
      | zero => omega
      | succ m => exact ⟨_, rfl⟩
  | c :: rest, n, hn => by
    rw [collapseDots3Aux]
    by_cases hd : (c == '.') = true
    · rw [if_pos hd]
      exact collapseDots3Aux_head_pos rest (n + 1) (by omega)
    · rw [if_neg hd]
      obtain ⟨t, ht⟩ : ∃ t, dotsOut n = '.' :: t := by
        rw [dotsOut]
        split
        · exact ⟨_, rfl⟩
        · cases n with
          | zero => omega
          | succ m => exact ⟨_, rfl⟩
      exact ⟨t ++ c :: collapseDots3Aux 0 rest, by rw [ht]; rfl⟩

theorem collapseDots3Aux_head0 (c : Char) (rest : List Char) :
    ∃ t, collapseDots3Aux 0 (c :: rest) = c :: t := by
  rw [collapseDots3Aux]
  by_cases hd : (c == '.') = true
  · rw [if_pos hd]
    obtain ⟨t, ht⟩ := collapseDots3Aux_head_pos rest 1 (by omega)
    exact ⟨t, by rw [ht, beq_iff_eq.mp hd]⟩
  · rw [if_neg hd]
    exact ⟨collapseDots3Aux 0 rest, by rw [dotsOut]; simp⟩

theorem collapseDots3Aux_wsPairFree :
    ∀ (cs : List Char) (n : Nat), wsPairFree cs → wsPairFree (collapseDots3Aux n cs)
  | [], n, _ => by
    rw [collapseDots3Aux]
    exact chain'_of_nonWs (fun c hc => by rw [mem_dotsOut hc]; rfl)
  | c :: rest, n, hpair => by
    have hpair' : wsPairFree rest := (List.chain'_cons'.mp hpair).2
    rw [collapseDots3Aux]
    by_cases hd : (c == '.') = true
    · rw [if_pos hd]
      exact collapseDots3Aux_wsPairFree rest (n + 1) hpair'
    · rw [if_neg hd]
      rw [wsPairFree, List.chain'_append]
      refine ⟨chain'_of_nonWs (fun d hd' => by rw [mem_dotsOut hd']; rfl), ?_, ?_⟩
      · rw [List.chain'_cons']
        refine ⟨fun y hy => ?_, collapseDots3Aux_wsPairFree rest 0 hpair'⟩
        cases rest with
        | nil =>
          rw [show collapseDots3Aux 0 ([] : List Char) = [] from rfl] at hy
          cases hy
        | cons c' t =>
          obtain ⟨t', ht'⟩ := collapseDots3Aux_head0 c' t
          rw [ht'] at hy
          simp only [List.head?_cons, Option.mem_def, Option.some.injEq] at hy
          subst hy
          exact (List.chain'_cons'.mp hpair).1 c' (by simp)
      · intro x hx y _
        have hx' : x = '.' := by
          rcases List.mem_getLast?_eq_getLast hx with ⟨hne, hxl⟩
          exact mem_dotsOut (hxl ▸ List.getLast_mem hne)
        intro hand
        rw [hx'] at hand
        cases hand.1

theorem collapseDots3Aux_noFourDots :
    ∀ (cs : List Char) (n : Nat), noFourDots (collapseDots3Aux n cs)
  | [], n => by
    rw [collapseDots3Aux]
    intro hinf
    have := hinf.length_le
    simp only [List.length_replicate] at this
    exact absurd (le_trans this (dotsOut_length_le n)) (by omega)
  | c :: rest, n => by
    rw [collapseDots3Aux]
    by_cases hd : (c == '.') = true
    · rw [if_pos hd]
      exact collapseDots3Aux_noFourDots rest (n + 1)
    · rw [if_neg hd]
      intro hinf
      rcases infix_append_cases hinf with h | h | ⟨p₁, p₂, hp, h1, h2, _, hB⟩
      · have := h.length_le
        simp only [List.length_replicate] at this
        exact absurd (le_trans this (dotsOut_length_le n)) (by omega)
      · rw [List.infix_cons_iff] at h
        rcases h with h | h
        · cases h with
          | intro w hw =>
            have : '.' = c := by
              have : ('.' :: List.replicate 3 '.') <+: c :: collapseDots3Aux 0 rest := ⟨w, hw⟩
              exact (List.cons_prefix_cons.mp this).1
            exact absurd (beq_iff_eq.mpr this.symm) (by simpa using hd)
        · exact collapseDots3Aux_noFourDots rest 0 h
      · cases p₂ with
        | nil => exact h2 rfl
        | cons b t =>
          have hb : b = '.' := by
            have : b ∈ List.replicate 4 '.' := by
              rw [hp]
              exact List.mem_append.mpr (Or.inr (by simp))
            exact List.eq_of_mem_replicate this
          have : b = c := (List.cons_prefix_cons.mp hB).1
          rw [hb] at this
          exact absurd (beq_iff_eq.mpr this.symm) (by simpa using hd)

theorem collapseDots3Aux_eq_self :
    ∀ (cs : List Char) (n : Nat), noFourDots (List.replicate n '.' ++ cs) →
      collapseDots3Aux n cs = List.replicate n '.' ++ cs
  | [], n, h => by
    have hn : n ≤ 3 := by
      by_contra hn4
      exact h (by
        refine (List.IsPrefix.isInfix ?_)
        rw [List.append_nil, show n = 4 + (n - 4) by omega, List.replicate_add]
        exact ⟨List.replicate (n - 4) '.', rfl⟩)
    rw [collapseDots3Aux, dotsOut_eq_replicate hn, List.append_nil]
  | c :: rest, n, h => by
    rw [collapseDots3Aux]
    by_cases hd : (c == '.') = true
    · rw [if_pos hd]
      have hc : c = '.' := beq_iff_eq.mp hd
      subst hc
      have heq : List.replicate n '.' ++ '.' :: rest = List.replicate (n + 1) '.' ++ rest := by
        rw [List.replicate_succ', List.append_assoc]
        rfl
      rw [heq] at h
      rw [collapseDots3Aux_eq_self rest (n + 1) h, heq]
    · rw [if_neg hd]
      have hn : n ≤ 3 := by
        by_contra hn4
        exact h (by
          refine (List.IsPrefix.isInfix ?_)
          rw [show n = 4 + (n - 4) by omega, List.replicate_add, List.append_assoc]
          exact ⟨List.replicate (n - 4) '.' ++ c :: rest, rfl⟩)
      have hrest : noFourDots rest :=
        noFourDots_mono ⟨List.replicate n '.' ++ [c], [], by simp⟩ h
      rw [dotsOut_eq_replicate hn]
      have : collapseDots3Aux 0 rest = rest := by
        have := collapseDots3Aux_eq_self rest 0 (by simpa using hrest)
        simpa using this
      rw [this]

/-! ### Idempotence of the normalizer -/

theorem optimize_idem_aux (x : List Char) :
    optimizeForSlides (optimizeForSlides x) = optimizeForSlides x := by
  have hz : optimizeForSlides x = trim (collapseDots3 (collapseWs x)) :=
    optimize_eq_trim_dots x
  set z := collapseDots3 (collapseWs x) with hzdef
  have hspace_z : wsAllSpace z := collapseDots3_wsAllSpace (collapseWs_wsAllSpace x)
  have hpair_z : wsPairFree z := collapseDots3Aux_wsPairFree (collapseWs x) 0
    (collapseWsAux_wsPairFree false x)
  have hdots_z : noFourDots z := collapseDots3Aux_noFourDots (collapseWs x) 0
  have hspace_y : wsAllSpace (optimizeForSlides x) := by
    rw [hz]
    exact wsAllSpace_sublist (trim_sublist z) hspace_z
  have hpair_y : wsPairFree (optimizeForSlides x) := by
    rw [hz]
    exact wsPairFree_infix (trim_isInfix z) hpair_z
  have hdots_y : noFourDots (optimizeForSlides x) := by
    rw [hz]
    exact noFourDots_mono (trim_isInfix z) hdots_z
  rw [optimize_eq_trim_dots (optimizeForSlides x)]
  rw [show collapseWs (optimizeForSlides x) = optimizeForSlides x from
    collapseWsAux_eq_self _ hspace_y hpair_y]
  rw [show collapseDots3 (optimizeForSlides x) = optimizeForSlides x by
    have := collapseDots3Aux_eq_self (optimizeForSlides x) 0 (by simpa using hdots_y)
    simpa [collapseDots3] using this]
  rw [hz, trim_idem]

/-! ### The fallback length splitter: progress, totality, content -/

theorem findBreak_le {cs : List Char} {lo : Nat} :
    ∀ (i : Nat) {b : Nat}, findBreak cs lo i = some b → b ≤ i + 1
  | 0, b, h => by
    rw [findBreak] at h
    split at h
    · exact le_of_eq (Option.some.inj h).symm
    · cases h
  | i + 1, b, h => by
    rw [findBreak] at h
    split at h
    · exact le_of_eq (Option.some.inj h).symm
    · split at h
      · cases h
      · exact le_trans (findBreak_le i h) (by omega)

theorem forceNext_gt {cs : List Char} {idealN start : Nat} (h : start < cs.length) :
    start < forceNext cs idealN start := by
  rw [forceNext]
  by_cases he : min (start + idealN) cs.length < cs.length
  · rw [if_pos he]
    exact lt_of_lt_of_le (Nat.lt_succ_self start) (le_max_right _ _)
  · rw [if_neg he]
    omega

theorem forceNext_le {cs : List Char} {idealN start : Nat} (h : start < cs.length) :
    forceNext cs idealN start ≤ cs.length := by
  rw [forceNext]
  by_cases he : min (start + idealN) cs.length < cs.length
  · rw [if_pos he]
    have hbp : ((if min (start + idealN) cs.length = 0 then none
        else findBreak cs (max start (min (start + idealN) cs.length - 40))
          (min (start + idealN) cs.length - 1)).getD
        (min (start + idealN) cs.length)) ≤ cs.length := by
      cases hb : (if min (start + idealN) cs.length = 0 then none
        else findBreak cs (max start (min (start + idealN) cs.length - 40))
          (min (start + idealN) cs.length - 1)) with
      | none => rw [Option.getD_none]; omega
      | some b =>
        rw [Option.getD_some]
        split at hb
        · cases hb
        · rename_i h0
          have := findBreak_le _ hb
          omega
    omega
  · rw [if_neg he]
    omega

theorem forceLoop_entries_ne_nil {cs : List Char} {idealN : Nat} :
    ∀ (fuel start : Nat), ∀ x ∈ forceLoop cs idealN fuel start, x ≠ []
  | 0, _, x, hx => by simp [forceLoop] at hx
  | fuel + 1, start, x, hx => by
    rw [forceLoop] at hx
    split at hx
    · rcases List.mem_append.mp hx with hx | hx
      · split at hx
        · rw [List.mem_singleton] at hx
          subst hx
          assumption
        · cases hx
      · exact forceLoop_entries_ne_nil fuel _ x hx
    · cases hx

theorem forceLoop_removeWs {cs : List Char} {idealN : Nat} :
    ∀ (fuel start : Nat),
      (removeWs (forceLoop cs idealN fuel start).flatten).Sublist (removeWs (cs.drop start))
  | 0, start => by simp [forceLoop, removeWs]
  | fuel + 1, start => by
    rw [forceLoop]
    split
    · rename_i hlt
      have hgt : start < forceNext cs idealN start := forceNext_gt hlt
      have hsplit : cs.drop start =
          (cs.drop start).take (forceNext cs idealN start - start) ++
            cs.drop (forceNext cs idealN start) := by
        conv_lhs => rw [← List.take_append_drop (forceNext cs idealN start - start) (cs.drop start)]
        rw [List.drop_drop, Nat.add_sub_cancel' (le_of_lt hgt)]
      have hR : removeWs (cs.drop start) =
          removeWs ((cs.drop start).take (forceNext cs idealN start - start)) ++
            removeWs (cs.drop (forceNext cs idealN start)) := by
        rw [← removeWs_append, ← hsplit]
      rcases em (trim ((cs.drop start).take (forceNext cs idealN start - start)) ≠ []) with h | h
      · rw [if_pos h, List.singleton_append, List.flatten_cons, removeWs_append, removeWs_trim, hR]
        exact List.Sublist.append_left (forceLoop_removeWs fuel _) _
      · rw [if_neg h, List.nil_append, hR]
        exact (forceLoop_removeWs fuel _).trans (List.sublist_append_right _ _)
    · simp [removeWs]

theorem forceSplitByLength_entries {t : List Char} {k : Int} {x : List Char}
    (hx : x ∈ forceSplitByLength t k) : x ≠ [] := by
  simp only [forceSplitByLength] at hx
  split at hx
  · cases hx
  · split at hx
    · exact forceLoop_entries_ne_nil _ _ x hx
    · rw [List.mem_singleton] at hx
      subst hx
      assumption

theorem forceSplitByLength_eq_nil_iff (t : List Char) (k : Int) :
    forceSplitByLength t k = [] ↔ trim t = [] := by
  constructor
  · intro h
    by_contra hne
    simp only [forceSplitByLength, if_neg hne] at h
    split at h
    · rename_i hlen
      rw [h] at hlen
      simp at hlen
    · cases h
  · intro h
    simp only [forceSplitByLength, if_pos h]

theorem forceSplitByLength_removeWs (t : List Char) (k : Int) :
    (removeWs (forceSplitByLength t k).flatten).Sublist (removeWs t) := by
  simp only [forceSplitByLength]
  split
  · simp [removeWs]
  · split
    · have := @forceLoop_removeWs (trim t)
        ((max 1 (jsCeilDiv (trim t).length (max 1 k))).toNat)
        (trim t).length 0
      rw [List.drop_zero, removeWs_trim] at this
      exact this
    · rw [List.flatten_cons, List.flatten_nil, List.append_nil, removeWs_trim]

/-! ### Content preservation of the sentence and word packers -/

theorem removeWs_nil : removeWs [] = [] := rfl

theorem removeWs_cons_ws {c : Char} (l : List Char) (h : isWs c = true) :
    removeWs (c :: l) = removeWs l := by
  simp [removeWs, List.filter_cons, h]

theorem removeWs_cons_nonWs {c : Char} (l : List Char) (h : isWs c = false) :
    removeWs (c :: l) = c :: removeWs l := by
  simp [removeWs, List.filter_cons, h]

theorem removeWs_flatten_sublist {l₁ l₂ : List (List Char)} (h : l₁.Sublist l₂) :
    (removeWs l₁.flatten).Sublist (removeWs l₂.flatten) := by
  induction h with
  | slnil => exact List.Sublist.refl _
  | cons a h ih =>
    rw [List.flatten_cons, removeWs_append]
    exact ih.trans (List.sublist_append_right _ _)
  | cons₂ a h ih =>
    rw [List.flatten_cons, List.flatten_cons, removeWs_append, removeWs_append]
    exact List.Sublist.append_left ih _

theorem removeWs_space_single : removeWs [' '] = [] := by decide

theorem packJoin_removeWs (st2 ts : List Char) :
    removeWs ((if st2 ≠ [] then st2 ++ [' '] else []) ++ ts) = removeWs st2 ++ removeWs ts := by
  by_cases h : st2 ≠ []
  · rw [if_pos h, List.append_assoc, removeWs_append, removeWs_append, removeWs_space_single,
      List.nil_append]
  · rw [if_neg h]
    push_neg at h
    subst h
    rw [List.nil_append, removeWs_nil, List.nil_append]

theorem foldl_sentStep_removeWs (a b : Int) :
    ∀ (ss : List (List Char)) (st : List (List Char) × List Char),
      ((removeWs (ss.foldl (sentStep a b) st).1.flatten) ++
        removeWs (ss.foldl (sentStep a b) st).2).Sublist
      (removeWs st.1.flatten ++ (removeWs st.2 ++ removeWs ss.flatten)) := by
  intro ss
  induction ss with
  | nil =>
    intro st
    simp only [List.foldl_nil, List.flatten_nil, removeWs_nil, List.append_nil]
    exact List.Sublist.refl _
  | cons s ss' ih =>
    intro st
    rw [List.foldl_cons]
    refine (ih (sentStep a b st s)).trans ?_
    rw [List.flatten_cons, removeWs_append]
    simp only [sentStep]
    split
    · rw [packJoin_removeWs, removeWs_trim]
      simp only [List.append_assoc]
      exact List.Sublist.refl _
    · rw [removeWs_trim]
      split
      · rw [List.flatten_append, removeWs_append, List.flatten_cons, List.flatten_nil,
          List.append_nil, removeWs_trim]
        simp only [List.append_assoc]
        exact List.Sublist.refl _
      · rw [List.append_nil]
        simp only [List.append_assoc]
        exact List.Sublist.append_left (List.sublist_append_right _ _) _

theorem foldl_wordStep_removeWs (a b : Int) :
    ∀ (ws : List (List Char)) (st : List (List Char) × List Char),
      ((removeWs (ws.foldl (wordStep a b) st).1.flatten) ++
        removeWs (ws.foldl (wordStep a b) st).2).Sublist
      (removeWs st.1.flatten ++ (removeWs st.2 ++ removeWs ws.flatten)) := by
  intro ws
  induction ws with
  | nil =>
    intro st
    simp only [List.foldl_nil, List.flatten_nil, removeWs_nil, List.append_nil]
    exact List.Sublist.refl _
  | cons w ws' ih =>
    intro st
    rw [List.foldl_cons]
    refine (ih (wordStep a b st w)).trans ?_
    rw [List.flatten_cons, removeWs_append]
    simp only [wordStep]
    split
    · rw [packJoin_removeWs]
      simp only [List.append_assoc]
      exact List.Sublist.refl _
    · split
      · rw [List.flatten_append, removeWs_append, List.flatten_cons, List.flatten_nil,
          List.append_nil, removeWs_trim]
        simp only [List.append_assoc]
        exact List.Sublist.refl _
      · rw [List.append_nil]
        simp only [List.append_assoc]
        exact List.Sublist.append_left (List.sublist_append_right _ _) _

theorem sentAux_flatten_sublist :
    ∀ (cs accN accT : List Char),
      ((sentAux accN accT cs).flatten).Sublist ((accN ++ accT) ++ cs)
  | [], accN, accT => by
    rw [sentAux]
    split
    · exact List.nil_sublist _
    · rw [List.flatten_cons, List.flatten_nil, List.append_nil]
  | c :: rest, accN, accT => by
    rw [sentAux]
    by_cases ht : isTerm c = true
    · rw [if_pos ht]
      by_cases he : (accN.isEmpty && accT.isEmpty) = true
      · rw [if_pos he]
        have h1 : accN = [] := List.isEmpty_iff.mp (Bool.and_elim_left he)
        have h2 : accT = [] := List.isEmpty_iff.mp (Bool.and_elim_right he)
        subst h1
        subst h2
        exact (sentAux_flatten_sublist rest [] []).trans
          (by simp)
      · rw [if_neg he]
        refine (sentAux_flatten_sublist rest accN (accT ++ [c])).trans ?_
        simp [List.append_assoc]
    · rw [if_neg ht]
      by_cases he : accT.isEmpty = true
      · rw [if_pos he]
        have h2 : accT = [] := List.isEmpty_iff.mp he
        subst h2
        refine (sentAux_flatten_sublist rest (accN ++ [c]) []).trans ?_
        simp [List.append_assoc]
      · rw [if_neg he]
        rw [List.flatten_cons]
        have h3 := sentAux_flatten_sublist rest [c] []
        simp only [List.append_nil, List.singleton_append] at h3
        refine (List.Sublist.append_left h3 (accN ++ accT)).trans ?_
        simp [List.append_assoc]

theorem removeWs_flatten_map_trim :
    ∀ m : List (List Char), removeWs ((m.map trim).flatten) = removeWs m.flatten
  | [] => rfl
  | s :: m => by
    rw [List.map_cons, List.flatten_cons, List.flatten_cons, removeWs_append, removeWs_append,
      removeWs_trim, removeWs_flatten_map_trim m]

theorem splitIntoSentences_removeWs (t : List Char) :
    (removeWs (splitIntoSentences t).flatten).Sublist (removeWs t) := by
  rw [splitIntoSentences]
  cases hm : sentenceMatches t with
  | nil =>
    rw [List.flatten_cons, List.flatten_nil, List.append_nil, removeWs_trim]
  | cons m0 m =>
    have h1 : (((m0 :: m).map trim).filter (fun s => s.length > 0)).Sublist ((m0 :: m).map trim) :=
      List.filter_sublist _
    refine (removeWs_flatten_sublist h1).trans ?_
    rw [removeWs_flatten_map_trim]
    have h2 : ((m0 :: m).flatten).Sublist t := by
      have h3 := sentAux_flatten_sublist t [] []
      rw [show sentAux [] [] t = sentenceMatches t from rfl, hm] at h3
      simpa using h3
    exact List.Sublist.filter _ h2

theorem splitBySentences_removeWs (t : List Char) (a b : Int) :
    (removeWs (splitBySentences t a b).flatten).Sublist (removeWs t) := by
  have hinv := foldl_sentStep_removeWs a b (splitIntoSentences t) ([], [])
  simp only [List.flatten_nil, removeWs_nil, List.nil_append] at hinv
  refine List.Sublist.trans ?_ (hinv.trans (splitIntoSentences_removeWs t))
  simp only [splitBySentences]
  rw [List.flatten_append, removeWs_append]
  split
  · rw [List.flatten_cons, List.flatten_nil, List.append_nil, removeWs_trim]
  · rw [List.flatten_nil, removeWs_nil, List.append_nil]
    exact List.sublist_append_left _ _

theorem splitWsAux_flatten_removeWs :
    ∀ (cs : List Char) (b : Bool) (acc : List Char),
      removeWs ((splitWsAux b acc cs).flatten) = removeWs acc ++ removeWs cs
  | [], _, acc => by
    rw [splitWsAux, List.flatten_cons, List.flatten_nil, List.append_nil, removeWs_nil,
      List.append_nil]
  | c :: rest, b, acc => by
    rw [splitWsAux]
    by_cases hw : isWs c = true
    · rw [if_pos hw]
      cases b with
      | true =>
        rw [if_pos rfl, splitWsAux_flatten_removeWs rest true acc, removeWs_cons_ws rest hw]
      | false =>
        rw [if_neg (by simp : ¬(false = true)), List.flatten_cons, removeWs_append,
          splitWsAux_flatten_removeWs rest true [], removeWs_cons_ws rest hw, removeWs_nil,
          List.nil_append]
    · have hw' : isWs c = false := by simpa using hw
      rw [if_neg hw, splitWsAux_flatten_removeWs rest false (acc ++ [c]), removeWs_append,
        removeWs_cons_nonWs rest hw', removeWs_cons_nonWs [] hw', removeWs_nil,
        List.append_assoc, List.singleton_append]

theorem splitByWords_removeWs (t : List Char) (a b : Int) :
    (removeWs (splitByWords t a b).flatten).Sublist (removeWs t) := by
  have hinv := foldl_wordStep_removeWs a b (splitWs t) ([], [])
  simp only [List.flatten_nil, removeWs_nil, List.nil_append] at hinv
  have hflat : removeWs ((splitWs t).flatten) = removeWs t := by
    rw [splitWs, splitWsAux_flatten_removeWs t false [], removeWs_nil, List.nil_append]
  rw [hflat] at hinv
  refine List.Sublist.trans ?_ hinv
  simp only [splitByWords]
  rw [List.flatten_append, removeWs_append]
  split
  · rw [List.flatten_cons, List.flatten_nil, List.append_nil, removeWs_trim]
  · rw [List.flatten_nil, removeWs_nil, List.append_nil]
    exact List.sublist_append_left _ _

/-! ### The Chunker: output shape and content preservation -/

theorem removeWs_collapseWsAux :
    ∀ (b : Bool) (cs : List Char), removeWs (collapseWsAux b cs) = removeWs cs
  | _, [] => rfl
  | b, c :: rest => by
    rw [collapseWsAux]
    by_cases hw : isWs c = true
    · rw [if_pos hw, removeWs_cons_ws rest hw]
      cases b with
      | true => rw [if_pos rfl, removeWs_collapseWsAux true rest]
      | false =>
        rw [if_neg (by simp : ¬(false = true)), removeWs_cons_ws _ (by decide : isWs ' ' = true),
          removeWs_collapseWsAux true rest]
    · have hw' : isWs c = false := by simpa using hw
      rw [if_neg hw, removeWs_cons_nonWs _ hw', removeWs_cons_nonWs _ hw',
        removeWs_collapseWsAux false rest]

theorem removeWs_collapseWs (cs : List Char) : removeWs (collapseWs cs) = removeWs cs :=
  removeWs_collapseWsAux false cs

theorem collapseWsAux_eq_self_of_noWs :
    ∀ (b : Bool) (cs : List Char), (∀ c ∈ cs, isWs c = false) → collapseWsAux b cs = cs
  | _, [], _ => rfl
  | b, c :: rest, h => by
    rw [collapseWsAux, if_neg (by rw [h c (by simp)]; simp),
      collapseWsAux_eq_self_of_noWs false rest (fun d hd => h d (List.mem_cons_of_mem _ hd))]

theorem splitOnNlNl_single : ∀ (cs : List Char), '\n' ∉ cs → splitOnNlNl cs = [cs]
  | [], _ => rfl
  | [_], _ => rfl
  | c :: c2 :: rest, h => by
    have hc : c ≠ '\n' := fun hh => h (by simp [hh])
    rw [splitOnNlNl, if_neg (fun hand => hc hand.1),
      splitOnNlNl_single (c2 :: rest) (fun hm => h (List.mem_cons_of_mem _ hm)), consFirst]

theorem trim_head_not_ws {x : List Char} {c : Char} {t : List Char} (h : trim x = c :: t) :
    isWs c = false := by
  obtain ⟨r, hr⟩ := trim_prefix_dropWhile x
  rw [h] at hr
  exact dropWhile_head_not x (by rw [← hr]; rfl)

theorem removeWs_ne_nil_of_trim_ne_nil {x : List Char} (h : trim x ≠ []) :
    removeWs x ≠ [] := by
  cases ht : trim x with
  | nil => exact absurd ht h
  | cons c t =>
    have hc : isWs c = false := trim_head_not_ws ht
    have hmem : c ∈ x := mem_trim (by rw [ht]; simp)
    have : c ∈ removeWs x := by
      rw [removeWs, List.mem_filter]
      exact ⟨hmem, by simp [hc]⟩
    intro hnil
    rw [hnil] at this
    cases this

theorem foldl_sentStep_fst_trimmed (a b : Int) :
    ∀ (ss : List (List Char)) (st : List (List Char) × List Char),
      (∀ c ∈ st.1, trim c = c) →
      ∀ c ∈ (ss.foldl (sentStep a b) st).1, trim c = c := by
  intro ss
  induction ss with
  | nil => intro st h; exact h
  | cons s ss' ih =>
    intro st h
    rw [List.foldl_cons]
    refine ih (sentStep a b st s) ?_
    simp only [sentStep]
    split
    · exact h
    · intro c hc
      rcases List.mem_append.mp hc with hc | hc
      · exact h c hc
      · split at hc
        · rw [List.mem_singleton] at hc
          subst hc
          exact trim_idem _
        · cases hc

theorem splitBySentences_trimmed {t : List Char} {a b : Int} :
    ∀ c ∈ splitBySentences t a b, trim c = c := by
  intro c hc
  simp only [splitBySentences] at hc
  rcases List.mem_append.mp hc with hc | hc
  · exact foldl_sentStep_fst_trimmed a b (splitIntoSentences t) ([], []) (by intro c hc; cases hc)
      c hc
  · split at hc
    · rw [List.mem_singleton] at hc
      subst hc
      exact trim_idem _
    · cases hc

theorem foldl_wordStep_fst_trimmed (a b : Int) :
    ∀ (ws : List (List Char)) (st : List (List Char) × List Char),
      (∀ c ∈ st.1, trim c = c) →
      ∀ c ∈ (ws.foldl (wordStep a b) st).1, trim c = c := by
  intro ws
  induction ws with
  | nil => intro st h; exact h
  | cons w ws' ih =>
    intro st h
    rw [List.foldl_cons]
    refine ih (wordStep a b st w) ?_
    simp only [wordStep]
    split
    · exact h
    · intro c hc
      rcases List.mem_append.mp hc with hc | hc
      · exact h c hc
      · split at hc
        · rw [List.mem_singleton] at hc
          subst hc
          exact trim_idem _
        · cases hc

theorem splitByWords_trimmed {t : List Char} {a b : Int} :
    ∀ c ∈ splitByWords t a b, trim c = c := by
  intro c hc
  simp only [splitByWords] at hc
  rcases List.mem_append.mp hc with hc | hc
  · exact foldl_wordStep_fst_trimmed a b (splitWs t) ([], []) (by intro c hc; cases hc) c hc
  · split at hc
    · rw [List.mem_singleton] at hc
      subst hc
      exact trim_idem _
    · cases hc

theorem foldl_chunkStep_chunks_trimmed (o : SplitOptions) :
    ∀ (ps : List (List Char)) (st : ChunkState),
      (∀ c ∈ st.chunks, trim c = c) →
      ∀ c ∈ (ps.foldl (chunkStep o) st).chunks, trim c = c := by
  intro ps
  induction ps with
  | nil => intro st h; exact h
  | cons p ps' ih =>
    intro st h
    rw [List.foldl_cons]
    refine ih (chunkStep o st p) ?_
    simp only [chunkStep]
    split
    · exact h
    · have hst1 : ∀ c ∈ (if st.current ≠ [] then
          ({ chunks := st.chunks ++ [trim st.current], current := [], currentLength := 0 } :
            ChunkState) else st).chunks, trim c = c := by
        split
        · intro c hc
          rcases List.mem_append.mp hc with hc | hc
          · exact h c hc
          · rw [List.mem_singleton] at hc
            subst hc
            exact trim_idem _
        · exact h
      split
      · intro c hc
        rcases List.mem_append.mp hc with hc | hc
        · exact hst1 c hc
        · exact splitBySentences_trimmed c hc
      · split
        · intro c hc
          rcases List.mem_append.mp hc with hc | hc
          · exact hst1 c hc
          · exact splitByWords_trimmed c hc
        · intro c hc
          rcases List.mem_append.mp hc with hc | hc
          · exact hst1 c hc
          · rw [List.mem_singleton] at hc
            subst hc
            exact trim_idem _

theorem advChunks_trimmed {t : List Char} {o : SplitOptions} :
    ∀ c ∈ splitIntoAdvancedChunks t o, trim c = c := by
  intro c hc
  simp only [splitIntoAdvancedChunks] at hc
  set ps := (if o.preserveParagraphs then
      (splitOnNlNl (trim (collapseWs t))).filter (fun p => trim p ≠ [])
    else [trim (collapseWs t)]) with hps
  set stf := ps.foldl (chunkStep o) ⟨[], [], 0⟩ with hstf
  by_cases h1 : (10 * (trim (collapseWs t)).length : Int) ≤ o.maxChunkSize
  · rw [if_pos h1, List.mem_singleton] at hc
    subst hc
    exact trim_idem _
  · rw [if_neg h1] at hc
    have hc' := (List.filter_sublist _).mem hc
    rcases List.mem_append.mp hc' with hc'' | hc''
    · exact foldl_chunkStep_chunks_trimmed o ps ⟨[], [], 0⟩ (by intro c hc; cases hc) c
        (by rw [← hstf]; exact hc'')
    · by_cases h2 : trim stf.current ≠ []
    
      · rw [if_pos h2, List.mem_singleton] at hc''
        subst hc''
        exact trim_idem _
      · rw [if_neg h2] at hc''
        cases hc''

theorem advChunks_mem_ne_nil {t : List Char} {o : SplitOptions}
    (hmin : 0 < o.minChunkSize) (ht : removeWs t ≠ []) :
    ∀ c ∈ splitIntoAdvancedChunks t o, c ≠ [] := by
  intro c hc
  simp only [splitIntoAdvancedChunks] at hc
  split at hc
  · rw [List.mem_singleton] at hc
    subst hc
    intro hnil
    apply ht
    have : removeWs (trim (collapseWs t)) = removeWs t := by
      rw [removeWs_trim, removeWs_collapseWs]
    rw [hnil] at this
    exact this.symm
  · rw [List.mem_filter] at hc
    have hlen : (10 * c.length : Int) ≥ o.minChunkSize := by
      have := hc.2
      simpa using this
    intro hnil
    subst hnil
    simp at hlen
    omega

theorem nlJoin_removeWs (st2 ts : List Char) :
    removeWs ((if st2 ≠ [] then st2 ++ ['\n', '\n'] else []) ++ ts) =
      removeWs st2 ++ removeWs ts := by
  by_cases h : st2 ≠ []
  · rw [if_pos h, List.append_assoc, removeWs_append, removeWs_append,
      show removeWs ['\n', '\n'] = [] from by decide, List.nil_append]
  · rw [if_neg h]
    push_neg at h
    subst h
    rw [List.nil_append, removeWs_nil, List.nil_append]

theorem sub_mid {A : List Char} (B : List Char) {C D : List Char} (h : C.Sublist D) :
    (A ++ (B ++ C)).Sublist (A ++ (B ++ D)) :=
  List.Sublist.append_left (List.Sublist.append_left h B) A

theorem chunkStep_removeWs (o : SplitOptions) (st : ChunkState) (p : List Char) :
    ((removeWs (chunkStep o st p).chunks.flatten) ++ removeWs (chunkStep o st p).current).Sublist
      ((removeWs st.chunks.flatten ++ removeWs st.current) ++ removeWs p) := by
  simp only [chunkStep]
  split
  · dsimp only
    rw [nlJoin_removeWs, removeWs_trim, List.append_assoc]
  · have hsent := splitBySentences_removeWs (trim p) o.maxChunkSize o.minChunkSize
    have hword := splitByWords_removeWs (trim p) o.maxChunkSize o.minChunkSize
    rw [removeWs_trim] at hsent hword
    split
    · split
      · dsimp only
        rw [List.append_assoc, List.flatten_append, List.flatten_append, removeWs_append,
          removeWs_append, List.flatten_cons, List.flatten_nil, List.append_nil, removeWs_trim,
          removeWs_nil, List.append_nil, List.append_assoc]
        exact sub_mid _ hsent
      · rename_i hcur
        push_neg at hcur
        dsimp only
        rw [hcur, removeWs_nil, List.append_nil, List.flatten_append, removeWs_append,
          List.append_nil]
        exact List.Sublist.append_left hsent _
    · split
      · split
        · dsimp only
          rw [List.append_assoc, List.flatten_append, List.flatten_append, removeWs_append,
            removeWs_append, List.flatten_cons, List.flatten_nil, List.append_nil, removeWs_trim,
            removeWs_nil, List.append_nil, List.append_assoc]
          exact sub_mid _ hword
        · rename_i hcur
          push_neg at hcur
          dsimp only
          rw [hcur, removeWs_nil, List.append_nil, List.flatten_append, removeWs_append,
            List.append_nil]
          exact List.Sublist.append_left hword _
      · split
        · dsimp only
          rw [List.append_assoc, List.flatten_append, List.flatten_append, removeWs_append,
            removeWs_append, List.flatten_cons, List.flatten_nil, List.append_nil, removeWs_trim,
            removeWs_nil, List.append_nil, List.flatten_cons, List.flatten_nil, List.append_nil,
            removeWs_trim, List.append_assoc]
        · rename_i hcur
          push_neg at hcur
          dsimp only
          rw [hcur, removeWs_nil, List.append_nil, List.flatten_append, removeWs_append,
            List.flatten_cons, List.flatten_nil, List.append_nil, removeWs_trim, List.append_nil]

theorem foldl_chunkStep_removeWs (o : SplitOptions) :
    ∀ (ps : List (List Char)) (st : ChunkState),
      ((removeWs ((ps.foldl (chunkStep o) st).chunks).flatten) ++
        removeWs (ps.foldl (chunkStep o) st).current).Sublist
      ((removeWs st.chunks.flatten ++ removeWs st.current) ++ removeWs ps.flatten) := by
  intro ps
  induction ps with
  | nil =>
    intro st
    simp only [List.foldl_nil, List.flatten_nil, removeWs_nil, List.append_nil]
    exact List.Sublist.refl _
  | cons p ps' ih =>
    intro st
    rw [List.foldl_cons, List.flatten_cons, removeWs_append, ← List.append_assoc]
    exact (ih (chunkStep o st p)).trans
      (List.Sublist.append_right (chunkStep_removeWs o st p) _)

theorem advChunks_removeWs (t : List Char) (o : SplitOptions) :
    (removeWs (splitIntoAdvancedChunks t o).flatten).Sublist (removeWs t) := by
  have hclean : removeWs (trim (collapseWs t)) = removeWs t := by
    rw [removeWs_trim, removeWs_collapseWs]
  have hnl : '\n' ∉ trim (collapseWs t) := by
    intro hmem
    have h' := mem_trim hmem
    rcases mem_collapseWsAux false t h' with h'' | h''
    · cases h''
    · rw [show isWs '\n' = true from by decide] at h''
      cases h''
  simp only [splitIntoAdvancedChunks]
  set ps := (if o.preserveParagraphs then
      (splitOnNlNl (trim (collapseWs t))).filter (fun p => trim p ≠ [])
    else [trim (collapseWs t)]) with hpsdef
  set stf := ps.foldl (chunkStep o) (⟨[], [], 0⟩ : ChunkState) with hstf
  by_cases h1 : (10 * (trim (collapseWs t)).length : Int) ≤ o.maxChunkSize
  · rw [if_pos h1, List.flatten_cons, List.flatten_nil, List.append_nil, hclean]
  · rw [if_neg h1]
    have hps : (removeWs ps.flatten).Sublist (removeWs t) := by
      rw [hpsdef]
      split
      · refine (removeWs_flatten_sublist (List.filter_sublist _)).trans ?_
        rw [splitOnNlNl_single _ hnl, List.flatten_cons, List.flatten_nil, List.append_nil,
          hclean]
      · rw [List.flatten_cons, List.flatten_nil, List.append_nil, hclean]
    have hfold := foldl_chunkStep_removeWs o ps ⟨[], [], 0⟩
    rw [← hstf] at hfold
    simp only [List.flatten_nil, removeWs_nil, List.append_nil, List.nil_append] at hfold
    refine (removeWs_flatten_sublist (List.filter_sublist _)).trans
      (List.Sublist.trans ?_ (hfold.trans hps))
    rw [List.flatten_append, removeWs_append]
    by_cases h2 : trim stf.current ≠ []
    · rw [if_pos h2, List.flatten_cons, List.flatten_nil, List.append_nil, removeWs_trim]
    · rw [if_neg h2, List.flatten_nil, removeWs_nil, List.append_nil]
      exact List.sublist_append_left _ _

/-! ### The Planner: totality and content preservation -/

theorem mapForce_removeWs (l : List (List Char)) (f : List Char → Int) :
    (removeWs (((l.map (fun c => forceSplitByLength c (f c))).flatten).flatten)).Sublist
      (removeWs l.flatten) := by
  induction l with
  | nil => exact List.Sublist.refl _
  | cons a l ih =>
    rw [List.map_cons, List.flatten_cons, List.flatten_append, removeWs_append,
      List.flatten_cons, removeWs_append]
    exact List.Sublist.append (forceSplitByLength_removeWs a (f a)) ih

theorem smartSplitOptions_min_pos {t : List Char} {ideal : Int} (h : 1 ≤ ideal) :
    0 < (smartSplitOptions t ideal).minChunkSize := by
  have hmin : (0 : Int) < min 100 (ideal * 3) := lt_min (by omega) (by omega)
  simp only [smartSplitOptions]
  split
  · exact hmin
  · exact hmin
  · exact lt_max_of_lt_left (by omega)
  · exact hmin
  · exact hmin

theorem smartSplit_removeWs (text : List Char) (n : Int) (h : trim text ≠ []) :
    (removeWs (smartSplit text n).flatten).Sublist (removeWs (trim text)) := by
  have htext : ¬(text = [] ∨ trim text = []) := by
    rintro (rfl | hh)
    · exact h rfl
    · exact h hh
  simp only [smartSplit]
  rw [if_neg htext]
  by_cases h20 : (trim text).length < 20
  · rw [if_pos h20, List.flatten_cons, List.flatten_nil, List.append_nil]
  · rw [if_neg h20]
    set ts : Int := if (trim text).length < 50 ∧ 1 < n then 1 else n with hts
    set o := smartSplitOptions (trim text) (jsCeilDiv (trim text).length ts) with ho
    set chunks := splitIntoAdvancedChunks (trim text) o with hchunks
    by_cases hu : (chunks.length : Int) < ts
    · rw [if_pos hu]
      refine (removeWs_flatten_sublist (List.filter_sublist _)).trans ?_
      refine (mapForce_removeWs _ _).trans ?_
      by_cases hne : chunks.length > 0
      · rw [if_pos hne, hchunks]
        exact advChunks_removeWs (trim text) o
      · rw [if_neg hne, List.flatten_cons, List.flatten_nil, List.append_nil]
    · rw [if_neg hu, hchunks]
      exact advChunks_removeWs (trim text) o

theorem smartSplit_length_pos (text : List Char) (n : Int) (hn : 1 ≤ n) :
    1 ≤ (smartSplit text n).length := by
  by_cases h : text = [] ∨ trim text = []
  · simp only [smartSplit]
    rw [if_pos h]
    exact le_refl 1
  · simp only [smartSplit]
    rw [if_neg h]
    by_cases h20 : (trim text).length < 20
    · rw [if_pos h20]
      exact le_refl 1
    · rw [if_neg h20]
      have htrim : trim text ≠ [] := by
        intro hh
        exact h (Or.inr hh)
      have hrem : removeWs (trim text) ≠ [] := by
        rw [removeWs_trim]
        exact removeWs_ne_nil_of_trim_ne_nil htrim
      set ts : Int := if (trim text).length < 50 ∧ 1 < n then 1 else n with hts
      have hts1 : 1 ≤ ts := by
        rw [hts]
        split
        · exact le_refl 1
        · exact hn
      have hideal : 1 ≤ jsCeilDiv (trim text).length ts := by
        rw [jsCeilDiv, if_pos (by omega : (0 : Int) < ts)]
        have hlen : 20 ≤ (trim text).length := by omega
        have hts0 : 1 ≤ ts.toNat := by omega
        have : 1 ≤ ((trim text).length + ts.toNat - 1) / ts.toNat := by
          rw [Nat.le_div_iff_mul_le (by omega)]
          omega
        exact_mod_cast this
      set o := smartSplitOptions (trim text) (jsCeilDiv (trim text).length ts) with ho
      have hmin : 0 < o.minChunkSize := by
        rw [ho]
        exact smartSplitOptions_min_pos hideal
      set chunks := splitIntoAdvancedChunks (trim text) o with hchunks
      by_cases hu : (chunks.length : Int) < ts
      · rw [if_pos hu]
        have hex : ∃ c0 sc', (if chunks.length > 0 then chunks else [trim text]) = c0 :: sc' ∧
            trim c0 = c0 ∧ c0 ≠ [] := by
          cases hcv : chunks with
          | nil =>
            refine ⟨trim text, [], by simp, trim_idem text, htrim⟩
          | cons c0 cl =>
            have hmem : c0 ∈ splitIntoAdvancedChunks (trim text) o := by
              rw [← hchunks, hcv]
              simp
            refine ⟨c0, cl, by simp, ?_, ?_⟩
            · exact advChunks_trimmed c0 hmem
            · exact advChunks_mem_ne_nil hmin hrem c0 hmem
        obtain ⟨c0, sc', hsc, hc0trim, hc0ne⟩ := hex
        rw [hsc]
        have hf : forceSplitByLength c0
            (max 1 (jsCeilDiv c0.length (max 1 (jsCeilDiv (trim text).length ts)))) ≠ [] := by
          intro hzero
          rw [forceSplitByLength_eq_nil_iff, hc0trim] at hzero
          exact hc0ne hzero
        cases hfv : forceSplitByLength c0
            (max 1 (jsCeilDiv c0.length (max 1 (jsCeilDiv (trim text).length ts)))) with
        | nil => exact absurd hfv hf
        | cons x xs =>
          have hxne : x ≠ [] := forceSplitByLength_entries (by rw [hfv]; simp)
          have hxmem : x ∈ ((c0 :: sc').map (fun c =>
              forceSplitByLength c
                (max 1 (jsCeilDiv c.length (max 1 (jsCeilDiv (trim text).length ts)))))).flatten := by
            rw [List.map_cons, List.flatten_cons, hfv]
            simp
          have hxf : x ∈ (((c0 :: sc').map (fun c =>
              forceSplitByLength c
                (max 1 (jsCeilDiv c.length (max 1 (jsCeilDiv (trim text).length ts)))))).flatten).filter
              (fun c => c.length > 0) := by
            rw [List.mem_filter]
            refine ⟨hxmem, ?_⟩
            simp [List.length_pos, hxne]
          have := List.length_pos.mpr (List.ne_nil_of_mem hxf)
          omega
      · rw [if_neg hu]
        have : ts ≤ (chunks.length : Int) := le_of_not_lt hu
        omega

/-! ### Run-on inputs without boundaries: the exact fragment count -/

theorem natCeilDiv_zero {d : Nat} (hd : 0 < d) : natCeilDiv 0 d = 0 := by
  show (0 + d - 1) / d = 0
  exact Nat.div_eq_of_lt (by omega)

theorem natCeilDiv_step {n d : Nat} (hn : 0 < n) (hd : 0 < d) :
    natCeilDiv n d = 1 + natCeilDiv (n - d) d := by
  by_cases h : n ≤ d
  · have h0 : n - d = 0 := by omega
    rw [h0, natCeilDiv_zero hd]
    show (n + d - 1) / d = 1 + 0
    have he : n + d - 1 = (n - 1) + d := by omega
    rw [he, Nat.add_div_right _ hd, Nat.div_eq_of_lt (by omega)]
  · show (n + d - 1) / d = 1 + (n - d + d - 1) / d
    have he : n + d - 1 = (n - d + d - 1) + d := by omega
    rw [he, Nat.add_div_right _ hd]
    exact Nat.add_comm _ 1

theorem natCeilDiv_id5 (L : Nat) (h : 16 < L) :
    natCeilDiv L (natCeilDiv L 5) = 5 := by
  have hq1 : 5 * natCeilDiv L 5 ≤ L + 4 := by simp only [natCeilDiv]; omega
  have hq2 : L ≤ 5 * natCeilDiv L 5 := by simp only [natCeilDiv]; omega
  show (L + natCeilDiv L 5 - 1) / natCeilDiv L 5 = 5
  exact Nat.div_eq_of_lt_le (by omega) (by omega)

theorem jsCeilDiv_eq_natCeilDiv {a : Nat} {b : Int} (hb : 0 < b) :
    jsCeilDiv a b = (natCeilDiv a b.toNat : Int) := by
  rw [jsCeilDiv, if_pos hb, natCeilDiv]

theorem getD_not_boundary {cs : List Char} (h : ∀ c ∈ cs, isBoundaryChar c = false)
    (j : Nat) : isBoundaryChar (cs.getD j (Char.ofNat 0)) = false := by
  by_cases hj : j < cs.length
  · rw [List.getD_eq_getElem cs _ hj]
    exact h _ (List.getElem_mem hj)
  · rw [List.getD_eq_default cs _ (by omega)]
    decide

theorem findBreak_none_of_noBoundary {cs : List Char}
    (h : ∀ c ∈ cs, isBoundaryChar c = false) (lo : Nat) :
    ∀ i, findBreak cs lo i = none
  | 0 => by
    rw [findBreak, if_neg (by rw [getD_not_boundary h 0]; exact Bool.false_ne_true)]
  | i + 1 => by
    rw [findBreak, if_neg (by rw [getD_not_boundary h (i + 1)]; exact Bool.false_ne_true)]
    split
    · rfl
    · exact findBreak_none_of_noBoundary h lo i

theorem forceNext_noBoundary {cs : List Char} {idealN start : Nat}
    (hB : ∀ c ∈ cs, isBoundaryChar c = false) (h1 : 1 ≤ idealN) :
    forceNext cs idealN start = min (start + idealN) cs.length := by
  rw [forceNext]
  by_cases he : min (start + idealN) cs.length < cs.length
  · rw [if_pos he, if_neg (by omega : ¬ min (start + idealN) cs.length = 0),
      findBreak_none_of_noBoundary hB _ _, Option.getD_none]
    omega
  · rw [if_neg he]

theorem forceLoop_count {cs : List Char} {idealN : Nat}
    (hW : ∀ c ∈ cs, isWs c = false) (hB : ∀ c ∈ cs, isBoundaryChar c = false)
    (h1 : 1 ≤ idealN) :
    ∀ (fuel start : Nat), cs.length - start ≤ fuel →
      (forceLoop cs idealN fuel start).length = natCeilDiv (cs.length - start) idealN
  | 0, start, hle => by
    have h0 : cs.length - start = 0 := by omega
    rw [h0, natCeilDiv_zero (by omega)]
    rfl
  | fuel + 1, start, hle => by
    rw [forceLoop]
    by_cases hs : start < cs.length
    · rw [if_pos hs]
      have hnext : forceNext cs idealN start = min (start + idealN) cs.length :=
        forceNext_noBoundary hB h1
      have hgt : start < forceNext cs idealN start := forceNext_gt hs
      have hwin : ∀ c ∈ (cs.drop start).take (forceNext cs idealN start - start),
          isWs c = false :=
        fun c hc => hW c (List.mem_of_mem_drop (List.mem_of_mem_take hc))
      have htrim : trim ((cs.drop start).take (forceNext cs idealN start - start))
          = (cs.drop start).take (forceNext cs idealN start - start) := trim_eq_self hwin
      have hlen : ((cs.drop start).take (forceNext cs idealN start - start)).length
          = min (forceNext cs idealN start - start) (cs.length - start) := by
        rw [List.length_take, List.length_drop]
      have hne : trim ((cs.drop start).take (forceNext cs idealN start - start)) ≠ [] := by
        rw [htrim]
        intro hnil
        have hl := congrArg List.length hnil
        rw [hlen, List.length_nil] at hl
        omega
      have hfuel : cs.length - forceNext cs idealN start ≤ fuel := by omega
      rw [if_pos hne, List.length_append, List.length_singleton,
        forceLoop_count hW hB h1 fuel (forceNext cs idealN start) hfuel, hnext]
      have harith : cs.length - min (start + idealN) cs.length
          = cs.length - start - idealN := by omega
      have hpos : 0 < cs.length - start := by omega
      have hd : 0 < idealN := by omega
      rw [harith, natCeilDiv_step hpos hd]
    · rw [if_neg hs]
      have h0 : cs.length - start = 0 := by omega
      rw [h0, natCeilDiv_zero (by omega)]
      rfl

theorem forceSplitByLength_runon {cs : List Char}
    (hW : ∀ c ∈ cs, isWs c = false) (hB : ∀ c ∈ cs, isBoundaryChar c = false)
    (hlen : 17 ≤ cs.length) :
    (forceSplitByLength cs 5).length = 5 := by
  have htrim : trim cs = cs := trim_eq_self hW
  have hne : cs ≠ [] := by intro h; subst h; simp at hlen
  have hq1 : 1 ≤ natCeilDiv cs.length 5 := by simp only [natCeilDiv]; omega
  simp only [forceSplitByLength, htrim]
  rw [if_neg hne]
  have h15 : max (1 : Int) 5 = 5 := by decide
  have ht5 : (5 : Int).toNat = 5 := by decide
  simp only [h15, jsCeilDiv_eq_natCeilDiv (show (0 : Int) < 5 by decide), ht5]
  have hmax : max (1 : Int) ((natCeilDiv cs.length 5 : Nat) : Int)
      = ((natCeilDiv cs.length 5 : Nat) : Int) := by omega
  have htq : (((natCeilDiv cs.length 5 : Nat) : Int)).toNat = natCeilDiv cs.length 5 := by
    omega
  rw [hmax, htq]
  have hc5 : (forceLoop cs (natCeilDiv cs.length 5) cs.length 0).length = 5 := by
    have hcount := forceLoop_count hW hB hq1 cs.length 0 (by omega)
    rw [Nat.sub_zero] at hcount
    rw [hcount, natCeilDiv_id5 cs.length (by omega)]
  rw [if_pos (by rw [hc5]; omega)]
  exact hc5

theorem sentAux_no_term : ∀ (cs : List Char), (∀ c ∈ cs, isTerm c = false) →
    ∀ accN, sentAux accN [] cs = []
  | [], _, _ => rfl
  | c :: rest, h, accN => by
    rw [sentAux, if_neg (by simp [h c (List.mem_cons_self c rest)]),
      if_pos (show (List.isEmpty ([] : List Char)) = true from rfl)]
    exact sentAux_no_term rest (fun d hd => h d (List.mem_cons_of_mem _ hd)) (accN ++ [c])

theorem splitIntoSentences_no_term {cs : List Char} (h : ∀ c ∈ cs, isTerm c = false) :
    splitIntoSentences cs = [trim cs] := by
  have hm : sentenceMatches cs = [] := sentAux_no_term cs h []
  rw [splitIntoSentences, hm]

theorem splitWsAux_no_ws : ∀ (cs acc : List Char), (∀ c ∈ cs, isWs c = false) →
    splitWsAux false acc cs = [acc ++ cs]
  | [], acc, _ => by rw [splitWsAux, List.append_nil]
  | c :: rest, acc, h => by
    rw [splitWsAux, if_neg (by simp [h c (List.mem_cons_self c rest)]),
      splitWsAux_no_ws rest (acc ++ [c]) (fun d hd => h d (List.mem_cons_of_mem _ hd))]
    simp

theorem splitWs_no_ws {cs : List Char} (h : ∀ c ∈ cs, isWs c = false) :
    splitWs cs = [cs] := by
  rw [splitWs, splitWsAux_no_ws cs [] h, List.nil_append]

theorem splitBySentences_flat {cs : List Char} (htrim : trim cs = cs)
    (hT : ∀ c ∈ cs, isTerm c = false) {maxS minS : Int}
    (hmax : ¬ ((10 * cs.length : Int) ≤ maxS)) (hmin : minS ≤ 10 * cs.length)
    (hne : cs ≠ []) :
    splitBySentences cs maxS minS = [cs] := by
  have hsent : splitIntoSentences cs = [cs] := by
    rw [splitIntoSentences_no_term hT, htrim]
  have hstep : sentStep maxS minS ([], []) cs = ([], cs) := by
    simp only [sentStep, htrim, List.length_nil, Nat.cast_zero, zero_add]
    rw [if_neg hmax]
    simp
  simp only [splitBySentences, hsent, List.foldl_cons, List.foldl_nil, hstep]
  rw [if_pos ⟨hne, hmin⟩, htrim, List.nil_append]

theorem splitByWords_flat {cs : List Char} (hW : ∀ c ∈ cs, isWs c = false)
    {maxS minS : Int}
    (hmax : ¬ ((10 * cs.length : Int) ≤ maxS)) (hmin : minS ≤ 10 * cs.length)
    (hne : cs ≠ []) :
    splitByWords cs maxS minS = [cs] := by
  have htrim : trim cs = cs := trim_eq_self hW
  have hstep : wordStep maxS minS ([], []) cs = ([], cs) := by
    simp only [wordStep, List.length_nil, Nat.cast_zero, zero_add]
    rw [if_neg (by omega)]
    simp
  simp only [splitByWords, splitWs_no_ws hW, List.foldl_cons, List.foldl_nil, hstep]
  rw [if_pos ⟨hne, hmin⟩, htrim, List.nil_append]

theorem advChunks_flat {cs : List Char} {o : SplitOptions}
    (hW : ∀ c ∈ cs, isWs c = false) (hT : ∀ c ∈ cs, isTerm c = false)
    (hmax : ¬ ((10 * cs.length : Int) ≤ o.maxChunkSize))
    (hmin : o.minChunkSize ≤ 10 * cs.length) (hne : cs ≠ []) :
    splitIntoAdvancedChunks cs o = [cs] := by
  have htrim : trim cs = cs := trim_eq_self hW
  have hclean : trim (collapseWs cs) = cs := by
    rw [collapseWs, collapseWsAux_eq_self_of_noWs false cs hW, htrim]
  have hnl : '\n' ∉ cs := fun hm => absurd (hW '\n' hm) (by decide)
  have hgt : (10 * cs.length : Int) > o.maxChunkSize := by omega
  have hsent := splitBySentences_flat htrim hT hmax hmin hne
  have hword := splitByWords_flat hW hmax hmin hne
  have hstep : chunkStep o ⟨[], [], 0⟩ cs = ⟨[cs], [], 0⟩ := by
    simp only [chunkStep, htrim, List.length_nil, Nat.cast_zero, zero_add]
    rw [if_neg hmax]
    cases hrs : o.respectSentences <;> cases hrw : o.respectWords <;>
      simp [decide_eq_true hgt, hsent, hword]
  simp only [splitIntoAdvancedChunks, hclean]
  rw [if_neg hmax]
  have hpar : (if o.preserveParagraphs then (splitOnNlNl cs).filter (fun p => trim p ≠ [])
      else [cs]) = [cs] := by
    split
    · rw [splitOnNlNl_single cs hnl]
      simp [htrim, hne]
    · rfl
  rw [hpar, List.foldl_cons, List.foldl_nil, hstep]
  simp [hmin, show trim ([] : List Char) = [] from rfl]

theorem advChunks_flatRS {cs : List Char} {o : SplitOptions}
    (htrim : trim cs = cs) (hclean : trim (collapseWs cs) = cs)
    (hT : ∀ c ∈ cs, isTerm c = false) (hnl : '\n' ∉ cs)
    (hrs : o.respectSentences = true)
    (hmax : ¬ ((10 * cs.length : Int) ≤ o.maxChunkSize))
    (hmin : o.minChunkSize ≤ 10 * cs.length) (hne : cs ≠ []) :
    splitIntoAdvancedChunks cs o = [cs] := by
  have hgt : (10 * cs.length : Int) > o.maxChunkSize := by omega
  have hsent := splitBySentences_flat htrim hT hmax hmin hne
  have hstep : chunkStep o ⟨[], [], 0⟩ cs = ⟨[cs], [], 0⟩ := by
    simp only [chunkStep, htrim, List.length_nil, Nat.cast_zero, zero_add]
    rw [if_neg hmax]
    simp [hrs, decide_eq_true hgt, hsent]
  simp only [splitIntoAdvancedChunks, hclean]
  rw [if_neg hmax]
  have hpar : (if o.preserveParagraphs then (splitOnNlNl cs).filter (fun p => trim p ≠ [])
      else [cs]) = [cs] := by
    split
    · rw [splitOnNlNl_single cs hnl]
      simp [htrim, hne]
    · rfl
  rw [hpar, List.foldl_cons, List.foldl_nil, hstep]
  simp [hmin, show trim ([] : List Char) = [] from rfl]

/-! ### Claim theorems -/

/-- C1, counterexample: `c1text` is a single run-on sentence of exactly
1000 characters with no punctuation at all (twenty-six 37-letter words
separated by single spaces, then a final 12-letter word), yet
`smartSplit c1text 5` returns 6 fragments, not 5: the backward boundary
search of `forceSplitByLength` moves every window end back to the
nearest space, so the windows are shorter than `idealChunkSize` and one
extra window is needed. -/
theorem c1_counterexample :
    c1text.length = 1000 ∧ (∀ c ∈ c1text, isTerm c = false) ∧
      (smartSplit c1text 5).length = 6 := by
  have hmem : ∀ c ∈ c1text, c = 'w' ∨ c = ' ' := by
    intro c hc
    rw [c1text] at hc
    rcases List.mem_append.mp hc with h | h
    · obtain ⟨l, hl, hcl⟩ := List.mem_flatten.mp h
      rw [List.eq_of_mem_replicate hl] at hcl
      rcases List.mem_append.mp hcl with h2 | h2
      · exact Or.inl (List.eq_of_mem_replicate h2)
      · rw [List.mem_singleton] at h2
        exact Or.inr h2
    · exact Or.inl (List.eq_of_mem_replicate h)
  have hT : ∀ c ∈ c1text, isTerm c = false := by
    intro c hc
    rcases hmem c hc with rfl | rfl <;> decide
  have hlen : c1text.length = 1000 := by decide
  have hne : c1text ≠ [] := by decide
  have htrim : trim c1text = c1text := by decide
  have hcw : collapseWs c1text = c1text := by decide
  have hclean : trim (collapseWs c1text) = c1text := by rw [hcw, htrim]
  have hnl : '\n' ∉ c1text := by decide
  have hdt : detectContentType c1text = ContentType.general := by decide
  refine ⟨hlen, hT, ?_⟩
  simp only [smartSplit, htrim, hlen]
  rw [if_neg (show ¬(c1text = [] ∨ c1text = []) by simpa using hne),
    if_neg (show ¬((1000 : Nat) < 20) by decide)]
  have h50 : ¬((1000 : Nat) < 50 ∧ (1 : Int) < 5) := by decide
  simp only [if_neg h50]
  have hj : jsCeilDiv 1000 5 = 200 := by decide
  simp only [hj]
  have hmax : ¬((10 * c1text.length : Int) ≤
      (smartSplitOptions c1text 200).maxChunkSize) := by
    simp only [smartSplitOptions, hdt, hlen]
    decide
  have hmin : (smartSplitOptions c1text 200).minChunkSize ≤ (10 * c1text.length : Int) := by
    simp only [smartSplitOptions, hdt, hlen]
    decide
  have hrs : (smartSplitOptions c1text 200).respectSentences = true := by
    simp [smartSplitOptions, hdt]
  rw [advChunks_flatRS htrim hclean hT hnl hrs hmax hmin hne]
  rw [if_pos (show ((([c1text] : List (List Char)).length : Int) < 5) by norm_num),
    if_pos (show ([c1text] : List (List Char)).length > 0 by simp)]
  simp only [List.map_cons, List.map_nil, List.flatten_cons, List.flatten_nil,
    List.append_nil, hlen]
  have hd200 : max (1 : Int) 200 = 200 := by decide
  simp only [hd200]
  have hj2 : jsCeilDiv 1000 200 = 5 := by decide
  simp only [hj2]
  have hd5 : max (1 : Int) 5 = 5 := by decide
  simp only [hd5]
  rw [List.filter_eq_self.mpr (fun x hx => by
    simp only [decide_eq_true_eq, gt_iff_lt, List.length_pos]
    exact forceSplitByLength_entries hx)]
  decide


/-- C1, amended: the claimed exact count does hold on inputs where the
fallback splitter finds no break points at all.  For every input of
1000 or more characters containing no whitespace, no break-boundary
character (space, period, comma, semicolon, colon, newline) and no
sentence terminator, `smartSplit cs 5` returns exactly 5 fragments:
the Chunker degenerates to the single oversized chunk `[cs]`, the
undershoot fallback fires, and `forceSplitByLength` cuts exactly
`ceil (len / ceil (len / 5)) = 5` full windows. -/
theorem c1_run_on_exact_count (cs : List Char) (hlen : 1000 ≤ cs.length)
    (hW : ∀ c ∈ cs, isWs c = false) (hB : ∀ c ∈ cs, isBoundaryChar c = false)
    (hT : ∀ c ∈ cs, isTerm c = false) :
    (smartSplit cs 5).length = 5 := by
  have hne : cs ≠ [] := by intro h; subst h; simp at hlen
  have htrim : trim cs = cs := trim_eq_self hW
  have hq1 : 5 * natCeilDiv cs.length 5 ≤ cs.length + 4 := by simp only [natCeilDiv]; omega
  have hq2 : cs.length ≤ 5 * natCeilDiv cs.length 5 := by simp only [natCeilDiv]; omega
  simp only [smartSplit, htrim]
  rw [if_neg (show ¬(cs = [] ∨ cs = []) by simpa using hne),
    if_neg (show ¬cs.length < 20 by omega)]
  have h50 : ¬(cs.length < 50 ∧ (1 : Int) < 5) := by rintro ⟨h1, -⟩; omega
  simp only [if_neg h50]
  have ht5 : (5 : Int).toNat = 5 := by decide
  simp only [jsCeilDiv_eq_natCeilDiv (show (0 : Int) < 5 by decide), ht5]
  have hbmax : ¬((10 * cs.length : Int) ≤
      (smartSplitOptions cs ((natCeilDiv cs.length 5 : Nat) : Int)).maxChunkSize) := by
    cases hdt : detectContentType cs <;>
      simp only [smartSplitOptions, hdt] <;> omega
  have hbmin : (smartSplitOptions cs ((natCeilDiv cs.length 5 : Nat) : Int)).minChunkSize ≤
      (10 * cs.length : Int) := by
    cases hdt : detectContentType cs <;>
      simp only [smartSplitOptions, hdt] <;> omega
  rw [advChunks_flat hW hT hbmax hbmin hne]
  rw [if_pos (show ((([cs] : List (List Char)).length : Int) < 5) by norm_num),
    if_pos (show ([cs] : List (List Char)).length > 0 by simp)]
  simp only [List.map_cons, List.map_nil, List.flatten_cons, List.flatten_nil,
    List.append_nil]
  have hmax1 : max (1 : Int) ((natCeilDiv cs.length 5 : Nat) : Int)
      = ((natCeilDiv cs.length 5 : Nat) : Int) := by omega
  simp only [hmax1]
  have hq0 : (0 : Int) < ((natCeilDiv cs.length 5 : Nat) : Int) := by omega
  have htq : (((natCeilDiv cs.length 5 : Nat) : Int)).toNat = natCeilDiv cs.length 5 := by
    omega
  simp only [jsCeilDiv_eq_natCeilDiv hq0, htq, natCeilDiv_id5 cs.length (by omega)]
  have hc55 : max (1 : Int) ((5 : Nat) : Int) = 5 := by decide
  simp only [hc55]
  rw [List.filter_eq_self.mpr (fun x hx => by
    simp only [decide_eq_true_eq, gt_iff_lt, List.length_pos]
    exact forceSplitByLength_entries hx)]
  exact forceSplitByLength_runon hW hB (by omega)

/-- C1, witness. -/
theorem c1_witness :
    (1000 ≤ (List.replicate 1000 'x').length ∧
      (∀ c ∈ List.replicate 1000 'x', isWs c = false) ∧
      (∀ c ∈ List.replicate 1000 'x', isBoundaryChar c = false) ∧
      (∀ c ∈ List.replicate 1000 'x', isTerm c = false)) ∧
      (smartSplit (List.replicate 1000 'x') 5).length = 5 :=
  ⟨⟨by simp, fun c hc => by rw [List.eq_of_mem_replicate hc]; decide,
      fun c hc => by rw [List.eq_of_mem_replicate hc]; decide,
      fun c hc => by rw [List.eq_of_mem_replicate hc]; decide⟩,
    c1_run_on_exact_count (List.replicate 1000 'x') (by simp)
      (fun c hc => by rw [List.eq_of_mem_replicate hc]; decide)
      (fun c hc => by rw [List.eq_of_mem_replicate hc]; decide)
      (fun c hc => by rw [List.eq_of_mem_replicate hc]; decide)⟩

/-- C3, counterexample: on the input `a` + three newlines + `b`, the
normalizer returns `a b` — all newlines are collapsed to a single
space, so the output does not contain a two-newline paragraph break as
the claim asserts. -/
theorem c3_counterexample :
    optimizeForSlides ['a', '\n', '\n', '\n', 'b'] = ['a', ' ', 'b'] ∧
      '\n' ∉ optimizeForSlides ['a', '\n', '\n', '\n', 'b'] := by
  constructor
  · decide
  · decide

/-- C3, amended: the whitespace-collapsing first pass of
`optimizeForSlides` removes every newline before the `\n{3,}` → `\n\n`
replacement runs, so that replacement is vacuous and the output of the
normalizer never contains a newline at all — paragraph breaks are not
preserved. -/
theorem c3_no_newline_in_output (x : List Char) : '\n' ∉ optimizeForSlides x :=
  optimize_no_newline_aux x

/-- C4: normalization is idempotent — `optimizeForSlides` applied twice
yields the same result as applying it once, for every input string. -/
theorem c4_optimize_idempotent (x : List Char) :
    optimizeForSlides (optimizeForSlides x) = optimizeForSlides x :=
  optimize_idem_aux x

/-- C5, counterexample: the empty string has trimmed length 0 < 20, yet
`smartSplit "" 3` returns the sentinel `["No content provided"]`, not
`[trimmedText] = [""]` as the claim (which explicitly includes the empty
string) asserts. -/
theorem c5_counterexample :
    smartSplit [] 3 ≠ [trim []] ∧ smartSplit [] 3 = [placeholderNoContent] ∧
      (trim ([] : List Char)).length < 20 := by
  refine ⟨?_, ?_, ?_⟩
  · decide
  · decide
  · decide

/-- C5, amended: for every input whose trimmed form is nonempty and
shorter than 20 characters, `smartSplit` returns exactly the one-element
list holding the trimmed text, regardless of the target slide count;
the empty/whitespace-only case instead yields the sentinel fragment. -/
theorem c5_short_text_floor (text : List Char) (n : Int)
    (h1 : trim text ≠ []) (h2 : (trim text).length < 20) :
    smartSplit text n = [trim text] := by
  have htext : ¬(text = [] ∨ trim text = []) := by
    rintro (rfl | hh)
    · exact h1 rfl
    · exact h1 hh
  simp only [smartSplit]
  rw [if_neg htext, if_pos h2]

/-- C5, witness. -/
theorem c5_witness :
    trim "Hi there.".toList ≠ [] ∧ (trim "Hi there.".toList).length < 20 ∧
      smartSplit "Hi there.".toList 3 = [trim "Hi there.".toList] :=
  ⟨by decide, by decide, c5_short_text_floor "Hi there.".toList 3 (by decide) (by decide)⟩

/-- C6: for every input string and every target `n ≥ 1`, `smartSplit`
returns a list with at least one element, and on empty or
whitespace-only input that element is the sentinel fragment
`"No content provided"`. -/
theorem c6_total_nonempty (text : List Char) (n : Int) (hn : 1 ≤ n) :
    1 ≤ (smartSplit text n).length ∧
      (trim text = [] → smartSplit text n = [placeholderNoContent]) := by
  refine ⟨smartSplit_length_pos text n hn, fun he => ?_⟩
  simp only [smartSplit]
  rw [if_pos (Or.inr he)]

/-- C6, witness. -/
theorem c6_witness :
    1 ≤ (smartSplit ([] : List Char) 3).length ∧
      (trim ([] : List Char) = [] → smartSplit ([] : List Char) 3 = [placeholderNoContent]) :=
  c6_total_nonempty [] 3 (by decide)

/-- C9, counterexample: on `c9text` (79 letters, a period, then the
short trailing sentence `Hi.`) with target 2, the sentence packer drops
the trailing sentence below `minChunkSize`: the letter `H` occurs in the
source but in no returned fragment, so concatenating the fragments does
not reproduce a whitespace-normalized version of the source. -/
theorem c9_counterexample :
    'H' ∈ removeWs (trim c9text) ∧ 'H' ∉ removeWs ((smartSplit c9text 2).flatten) := by
  constructor
  · decide
  · decide

/-- C9, amended: for every input with nonempty trimmed form and every
target count, the concatenation of the fragments of `smartSplit`, with
all whitespace removed, is an order-preserving, duplication-free
subsequence of the whitespace-stripped source — content spans keep
their relative order and are never duplicated, but fragments below
`minChunkSize` may be dropped, so exact reproduction can fail. -/
theorem c9_order_preservation (text : List Char) (n : Int) (h : trim text ≠ []) :
    (removeWs ((smartSplit text n).flatten)).Sublist (removeWs (trim text)) :=
  smartSplit_removeWs text n h

/-- C9, witness. -/
theorem c9_witness :
    trim c9text ≠ [] ∧
      (removeWs ((smartSplit c9text 2).flatten)).Sublist (removeWs (trim c9text)) :=
  ⟨by decide, c9_order_preservation c9text 2 (by decide)⟩

/-- C10: the scanning loop of `forceSplitByLength` always makes
progress — from any in-range window start the chosen end point is
strictly larger — and the function returns the empty list exactly when
the trimmed input is empty (so it is non-empty whenever the trimmed
input is non-empty), for every integer target including zero and
negative values. -/
theorem c10_force_split_total :
    (∀ (cs : List Char) (idealN start : Nat), start < cs.length →
      start < forceNext cs idealN start) ∧
    (∀ (text : List Char) (targetSlides : Int),
      forceSplitByLength text targetSlides = [] ↔ trim text = []) :=
  ⟨fun _ _ _ h => forceNext_gt h, fun text k => forceSplitByLength_eq_nil_iff text k⟩

/-- C10, witness. -/
theorem c10_witness :
    0 < forceNext ['a', 'b'] 1 0 ∧ forceSplitByLength ['a', 'b'] (-3) ≠ [] :=
  ⟨c10_force_split_total.1 ['a', 'b'] 1 0 (by decide),
    fun hh => (by decide : ¬trim ['a', 'b'] = [])
      ((c10_force_split_total.2 ['a', 'b'] (-3)).mp hh)⟩

/-- C2, counterexample: for `c2text` (a 302-character one-sentence
quote), `smartSplit` at the optimal target returns one fragment, but
`estimateSlideCount` returns 2 — the plain length estimate
`ceil(302/200)` wins the final `max`, so the estimate is not the
fragment count. -/
theorem c2_counterexample :
    estimateSlideCount c2text 200 = 2 ∧
      (smartSplit (optimizeForSlides (trim (collapseWs c2text)))
        ((getOptimalSlideCount (optimizeForSlides (trim (collapseWs c2text)))) : Int)).length
        = 1 := by
  constructor
  · decide
  · decide

/-- C2, amended: `estimateSlideCount text` (default 200 chars/slide)
returns the maximum of the fragment count `smartSplit` produces at the
optimal target and the plain length estimate
`max 1 ceil(cleanedLength/200)`; it equals the fragment count only when
that count is at least the length estimate.  The empty/whitespace case
(returning 1) satisfies the same equation. -/
theorem c2_estimate_eq_max (text : List Char) :
    estimateSlideCount text 200 =
      max (smartSplit (optimizeForSlides (trim (collapseWs text)))
        ((getOptimalSlideCount (optimizeForSlides (trim (collapseWs text)))) : Int)).length
        (max 1 (natCeilDiv (optimizeForSlides (trim (collapseWs text))).length 200)) := by
  simp only [estimateSlideCount]
  by_cases hc : trim (collapseWs text) = []
  · rw [if_pos hc, hc]
    decide
  · rw [if_neg hc]

/-- C7, counterexample: `c7text` is a 60-character quote; at target 1
the ideal chunk size is 60 and the quote override sets `maxChunkSize`
to 72 — strictly larger than both the claimed cap
`min(min(1.5·60, 60), 1.2·60) = 60` and the text length itself. -/
theorem c7_counterexample :
    detectContentType (trim c7text) = ContentType.quote ∧
      jsCeilDiv (trim c7text).length 1 = 60 ∧
      (smartSplitOptions (trim c7text) 60).maxChunkSize = 720 ∧
      ¬((smartSplitOptions (trim c7text) 60).maxChunkSize ≤ (10 * (trim c7text).length : Int)) := by
  refine ⟨?_, ?_, ?_, ?_⟩
  · decide
  · decide
  · decide
  · decide

/-- C7, amended: for every input classified as `quote`, the options
resolved by `smartSplit` carry `maxChunkSize` equal to exactly
`idealChunkSize * 1.2` — an assignment, not a cap: the default bound
`min(idealChunkSize*1.5, textLength)` is discarded, and the result can
exceed the text length. -/
theorem c7_quote_max_override (t : List Char) (ideal : Int)
    (h : detectContentType t = ContentType.quote) :
    (smartSplitOptions t ideal).maxChunkSize = ideal * 12 := by
  simp only [smartSplitOptions]
  split <;> simp_all

/-- C7, witness. -/
theorem c7_witness :
    detectContentType (trim c7text) = ContentType.quote ∧
      (smartSplitOptions (trim c7text) 60).maxChunkSize = 60 * 12 :=
  ⟨by decide, c7_quote_max_override (trim c7text) 60 (by decide)⟩

/-- C8, counterexample: the four-character text `code` is classified
`technical`; the claim's formula gives `clamp(2..8, ceil(4/100)) = 2`,
but `getOptimalSlideCount` returns 1 because of the short-text rule the
claim omits. -/
theorem c8_counterexample :
    getOptimalSlideCount "code".toList = 1 ∧ specOptimalSlideCount "code".toList = 2 := by
  constructor
  · decide
  · decide

/-- C8, amended: `getOptimalSlideCount` follows the claimed formula —
content-type base count clamped as stated, plus one capped at 8 exactly
when the reading time exceeds two minutes — except that every text with
trimmed length below 50 returns 1 unconditionally. -/
theorem c8_optimal_count_characterization (text : List Char) :
    getOptimalSlideCount text =
      if (trim text).length < 50 then 1 else specOptimalSlideCount text := by
  simp only [getOptimalSlideCount, specOptimalSlideCount]
  by_cases h : (trim text).length < 50
  · rw [if_pos h, if_pos h]
  · rw [if_neg h, if_neg h]
    have hc : ∀ v : Nat, min 5 (max 2 v) = clampRange 2 5 v := by
      intro v
      simp only [clampRange]
      omega
    have hc2 : ∀ v : Nat, min 6 (max 3 v) = clampRange 3 6 v := by
      intro v
      simp only [clampRange]
      omega
    have hc3 : ∀ v : Nat, min 8 (max 2 v) = clampRange 2 8 v := by
      intro v
      simp only [clampRange]
      omega
    cases hct : detectContentType text <;>
      simp only [hct, hc, hc2, hc3]

end TextToSlides
